import Mathlib

/-!
# Tic-Tac-Toe engine (`game/game.go`): embedding and verification

The Go package keeps one mutable `Game` value behind a pointer receiver and
aborts with a panic on an illegal move.  The embedding below is a state-passing
one: a method is a function from the state before the call to an outcome that
carries the state after it, both when the call returns and when it panics.

Go `int` is modelled by `Int`.  Every integer the program computes is a cell
value, a tally of at most 8 lines, a move counter that counts the marked cells
of a 9-cell board, or one of the sentinels `-1000` and `1000`, so no operation
gets near the 64-bit bounds.  The `depth` argument of the two searches is a
`Nat`: the only callers pass `len(availableActions)-1` after reading
`availableActions[0]`, and the recursion decreases it down to the test
`depth == 0`.
-/

namespace TicTacToe

/-! ## Data model -/

/-- Aborts of the Go program: the explicit `panic("Position already marked!")`
of `Result`, the run-time index check of an array or slice access, and the
argument check of `rand.Intn`. -/
inductive GoPanic where
  | positionAlreadyMarked
  | indexOutOfRange
  | invalidArgument
  deriving DecidableEq

/-- The `[9]int` array of the `Game` struct. -/
abbrev Board := Fin 9 → Int

/-- The `Game` struct, field by field. -/
structure Game where
  board : Board
  playerTurn : Bool
  nMoves : Int
  isOver : Bool
  points : Int

instance : DecidableEq Game := fun a b =>
  decidable_of_iff
    (a.board = b.board ∧ a.playerTurn = b.playerTurn ∧ a.nMoves = b.nMoves
      ∧ a.isOver = b.isOver ∧ a.points = b.points)
    (by cases a; cases b; simp)

/-- Outcome of running a method on a state: it returned `val` and left the
state `g`, or it panicked and `g` is the state at the moment of the panic. -/
inductive Run (α : Type) where
  | done (val : α) (g : Game)
  | fault (p : GoPanic) (g : Game)

instance {α : Type} [DecidableEq α] : DecidableEq (Run α) := fun x y =>
  match x, y with
  | .done a g, .done b h =>
      decidable_of_iff (a = b ∧ g = h) (by simp)
  | .fault p g, .fault q h =>
      decidable_of_iff (p = q ∧ g = h) (by simp)
  | .done _ _, .fault _ _ => isFalse (by simp)
  | .fault _ _, .done _ _ => isFalse (by simp)

/-- The state an outcome carries. -/
def Run.state {α : Type} : Run α → Game
  | .done _ g => g
  | .fault _ g => g

/-- A method with receiver `g *Game`: the state comes in, an outcome goes out. -/
def GoM (α : Type) : Type := Game → Run α

/-- Sequencing of two statements: a panic in the first one ends the run. -/
def GoM.bind {α β : Type} (m : GoM α) (f : α → GoM β) : GoM β := fun g =>
  match m g with
  | .done a g1 => f a g1
  | .fault p g1 => .fault p g1

instance : Monad GoM where
  pure a := fun g => .done a g
  bind := GoM.bind

/-- Read the receiver. -/
def getGame : GoM Game := fun g => .done g g

/-- Overwrite the receiver. -/
def setGame (g1 : Game) : GoM Unit := fun _ => .done () g1

/-- Abort with a panic; the state stays as it is at that moment. -/
def throwPanic {α : Type} (p : GoPanic) : GoM α := fun g => .fault p g

/-- The run-time bounds check of `g.board[i]`. -/
def boardIndex (i : Int) : GoM (Fin 9) := fun g =>
  if h : 0 ≤ i ∧ i < 9 then .done ⟨i.toNat, by omega⟩ g else .fault .indexOutOfRange g

/-! ## State operations -/

/-- Greatest value of Go's `int` where it is 64 bits wide (`math.MaxInt64`).
The counter `nMoves` is an `Int` here, and `nMoves + 1` below is the successor
of the integers: it is what `g.nMoves++` computes for every counter below
`maxInt`, the one value at which `++` wraps around. -/
def maxInt : Int := 9223372036854775807

/-- `New`: the zero value of the struct. -/
def New : Game :=
  { board := fun _ => 0, playerTurn := false, nMoves := 0, isOver := false, points := 0 }

/-- `Score`. -/
def Game.Score (g : Game) : Int := g.points

/-- `GameOver`. -/
def Game.GameOver (g : Game) : Bool := g.isOver

/-- The nine indices of the array in the order `range g.board` visits them. -/
def boardIndices : List (Fin 9) := [0, 1, 2, 3, 4, 5, 6, 7, 8]

/-- `Actions`: the early return on `isOver`, then the `range` loop appending
`index+1` for every cell that holds `0`. -/
def Actions : GoM (List Int) := do
  let g ← getGame
  if g.isOver then pure []
  else
    let availableActions := boardIndices.foldl
      (fun availableActions index =>
        if g.board index = 0 then availableActions ++ [(index.val : Int) + 1]
        else availableActions) []
    pure availableActions

/-- One pass of the loop `for row := 0; row < 3; row++` of `Evaluate` on the
pair `(playerScore, oppScore)`. -/
def rowStep (b : Board) (s : Int × Int) (row : Fin 3) : Int × Int :=
  let playerScore :=
    if b ⟨row.val * 3, by omega⟩ = 1 ∧ b ⟨row.val * 3 + 1, by omega⟩ = 1
        ∧ b ⟨row.val * 3 + 2, by omega⟩ = 1 then s.1 + 1 else s.1
  let oppScore :=
    if b ⟨row.val * 3, by omega⟩ = -1 ∧ b ⟨row.val * 3 + 1, by omega⟩ = -1
        ∧ b ⟨row.val * 3 + 2, by omega⟩ = -1 then s.2 + 1 else s.2
  (playerScore, oppScore)

/-- One pass of the loop `for col := 0; col < 3; col++` of `Evaluate`. -/
def colStep (b : Board) (s : Int × Int) (col : Fin 3) : Int × Int :=
  let playerScore :=
    if b ⟨col.val, by omega⟩ = 1 ∧ b ⟨col.val + 3, by omega⟩ = 1
        ∧ b ⟨col.val + 6, by omega⟩ = 1 then s.1 + 1 else s.1
  let oppScore :=
    if b ⟨col.val, by omega⟩ = -1 ∧ b ⟨col.val + 3, by omega⟩ = -1
        ∧ b ⟨col.val + 6, by omega⟩ = -1 then s.2 + 1 else s.2
  (playerScore, oppScore)

/-- The two diagonal tests of `Evaluate`, in source order. -/
def diagStep (b : Board) (s : Int × Int) : Int × Int :=
  let playerScore := if b 0 = 1 ∧ b 4 = 1 ∧ b 8 = 1 then s.1 + 1 else s.1
  let oppScore := if b 0 = -1 ∧ b 4 = -1 ∧ b 8 = -1 then s.2 + 1 else s.2
  let playerScore := if b 2 = 1 ∧ b 4 = 1 ∧ b 6 = 1 then playerScore + 1 else playerScore
  let oppScore := if b 2 = -1 ∧ b 4 = -1 ∧ b 6 = -1 then oppScore + 1 else oppScore
  (playerScore, oppScore)

/-- The tallies `(playerScore, oppScore)` of `Evaluate` after its three scans,
both starting from `0`. -/
def tallies (b : Board) : Int × Int :=
  diagStep b (([0, 1, 2] : List (Fin 3)).foldl (colStep b)
    (([0, 1, 2] : List (Fin 3)).foldl (rowStep b) (0, 0)))

/-- `Evaluate`: reads `nMoves`, the board and `playerTurn`; returns the pair
`(gameOver, score)`. -/
def Evaluate : GoM (Bool × Int) := do
  let g ← getGame
  let gameOver := decide (g.nMoves = 9)
  let scores := tallies g.board
  let playerScore := scores.1
  let oppScore := scores.2
  let gameOver := gameOver || (decide (playerScore ≠ 0) || decide (oppScore ≠ 0))
  if g.playerTurn then pure (gameOver, playerScore)
  else pure (gameOver, -oppScore)

/-- `Result`: the bounds check and the occupied-cell panic come first, then the
four assignments in source order.  The increment is the one of Go for a counter
below `maxInt`. -/
def Result (pos : Int) : GoM Unit := do
  let i ← boardIndex (pos - 1)
  let g ← getGame
  if g.board i ≠ 0 then throwPanic .positionAlreadyMarked
  else do
    let g ← getGame
    setGame { g with board := Function.update g.board i (if g.playerTurn then 1 else -1) }
    let g ← getGame
    setGame { g with nMoves := g.nMoves + 1 }
    let e ← Evaluate
    let g ← getGame
    setGame { g with isOver := e.1, points := e.2 }
    let g ← getGame
    setGame { g with playerTurn := !g.playerTurn }

/-- `ResetPos`: no occupied-cell test, the same four steps with `0` and `--`. -/
def ResetPos (pos : Int) : GoM Unit := do
  let i ← boardIndex (pos - 1)
  let g ← getGame
  setGame { g with board := Function.update g.board i 0 }
  let g ← getGame
  setGame { g with nMoves := g.nMoves - 1 }
  let e ← Evaluate
  let g ← getGame
  setGame { g with isOver := e.1, points := e.2 }
  let g ← getGame
  setGame { g with playerTurn := !g.playerTurn }

/-! ## Search -/

/-- The `range availableActions` loop of the maximizing branch of `minimax`,
from the positions still to visit and the current `maxEval`; `child` is the
recursive call. -/
def maxLoop (child : GoM Int) : List Int → Int → GoM Int
  | [], maxEval => pure maxEval
  | pos :: rest, maxEval => do
      Result pos
      let eval ← child
      ResetPos pos
      maxLoop child rest (if maxEval < eval then eval else maxEval)

/-- The loop of the minimizing branch of `minimax`. -/
def minLoop (child : GoM Int) : List Int → Int → GoM Int
  | [], minEval => pure minEval
  | pos :: rest, minEval => do
      Result pos
      let eval ← child
      ResetPos pos
      minLoop child rest (if minEval > eval then eval else minEval)

/-- `minimax(g, depth, maximizingPlayer)`, the receiver being the state of the
run. -/
def minimax : Nat → Bool → GoM Int
  | 0, _ => do
      let g ← getGame
      pure g.Score
  | depth + 1, maximizingPlayer => do
      let g ← getGame
      if g.GameOver then pure g.Score
      else if maximizingPlayer then do
        let availableActions ← Actions
        maxLoop (minimax depth false) availableActions (-1000)
      else do
        let availableActions ← Actions
        minLoop (minimax depth true) availableActions 1000

/-- The loop of the maximizing branch of `minimaxAlphaBeta`: `alpha` is
raised after every child and the loop is left as soon as `beta <= alpha`. -/
def alphaLoop (child : Int → Int → GoM Int) (beta : Int) : List Int → Int → Int → GoM Int
  | [], maxEval, _ => pure maxEval
  | pos :: rest, maxEval, alpha => do
      Result pos
      let eval ← child alpha beta
      ResetPos pos
      let maxEval := if maxEval < eval then eval else maxEval
      let alpha := max alpha eval
      if beta ≤ alpha then pure maxEval
      else alphaLoop child beta rest maxEval alpha

/-- The loop of the minimizing branch of `minimaxAlphaBeta`. -/
def betaLoop (child : Int → Int → GoM Int) (alpha : Int) : List Int → Int → Int → GoM Int
  | [], minEval, _ => pure minEval
  | pos :: rest, minEval, beta => do
      Result pos
      let eval ← child alpha beta
      ResetPos pos
      let minEval := if minEval > eval then eval else minEval
      let beta := min beta eval
      if beta ≤ alpha then pure minEval
      else betaLoop child alpha rest minEval beta

/-- `minimaxAlphaBeta(g, depth, alpha, beta, maximizingPlayer)`. -/
def minimaxAlphaBeta : Nat → Int → Int → Bool → GoM Int
  | 0, _, _, _ => do
      let g ← getGame
      pure g.Score
  | depth + 1, alpha, beta, maximizingPlayer => do
      let g ← getGame
      if g.GameOver then pure g.Score
      else if maximizingPlayer then do
        let availableActions ← Actions
        alphaLoop (fun a b => minimaxAlphaBeta depth a b false) beta availableActions (-1000) alpha
      else do
        let availableActions ← Actions
        betaLoop (fun a b => minimaxAlphaBeta depth a b true) alpha availableActions 1000 beta

/-- The slice access `availableActions[0]` with its run-time bounds check. -/
def firstAction : List Int → GoM Int
  | [] => throwPanic .indexOutOfRange
  | pos :: _ => pure pos

/-- The candidate loop shared by `IntelligentMove` and
`IntelligentMoveAlphaBeta`: `search` is the call that scores the position
reached by the candidate; the loop returns the final `bestMove`. -/
def bestLoop (search : GoM Int) : List Int → Int → Int → GoM Int
  | [], _, bestMove => pure bestMove
  | pos :: rest, bestScore, bestMove => do
      Result pos
      let score ← search
      ResetPos pos
      if score > bestScore then bestLoop search rest score pos
      else bestLoop search rest bestScore bestMove

/-- `IntelligentMove`. -/
def IntelligentMove : GoM Unit := do
  let availableActions ← Actions
  let bestScore : Int := -1000
  let bestMove ← firstAction availableActions
  let bestMove ←
    bestLoop (minimax (availableActions.length - 1) false) availableActions bestScore bestMove
  Result bestMove

/-- `IntelligentMoveAlphaBeta`. -/
def IntelligentMoveAlphaBeta : GoM Unit := do
  let availableActions ← Actions
  let bestScore : Int := -1000
  let bestMove ← firstAction availableActions
  let bestMove ←
    bestLoop (minimaxAlphaBeta (availableActions.length - 1) (-1000) 1000 false)
      availableActions bestScore bestMove
  Result bestMove

/-! ## Pure readings of the operations -/

/-- The pair `Evaluate` returns, as a function of the state. -/
def Game.evaluation (g : Game) : Bool × Int :=
  if g.playerTurn then
    (decide (g.nMoves = 9)
      || (decide ((tallies g.board).1 ≠ 0) || decide ((tallies g.board).2 ≠ 0)),
     (tallies g.board).1)
  else
    (decide (g.nMoves = 9)
      || (decide ((tallies g.board).1 ≠ 0) || decide ((tallies g.board).2 ≠ 0)),
     -(tallies g.board).2)

/-- The list `Actions` returns, as a function of the state. -/
def Game.actions (g : Game) : List Int :=
  if g.isOver then []
  else boardIndices.foldl
    (fun availableActions index =>
      if g.board index = 0 then availableActions ++ [(index.val : Int) + 1]
      else availableActions) []

/-- Index of the cell a position names, for a position in `1..9`. -/
def cellOf (pos : Int) (h : 0 ≤ pos - 1 ∧ pos - 1 < 9) : Fin 9 := ⟨(pos - 1).toNat, by omega⟩

/-- The state `Result` leaves when it returns: the mover's mark in cell `i`, the
counter advanced, the cached pair recomputed before the turn flips. -/
def Game.place (g : Game) (i : Fin 9) : Game :=
  { board := Function.update g.board i (if g.playerTurn then 1 else -1)
    playerTurn := !g.playerTurn
    nMoves := g.nMoves + 1
    isOver := (Game.evaluation { g with
      board := Function.update g.board i (if g.playerTurn then 1 else -1)
      nMoves := g.nMoves + 1 }).1
    points := (Game.evaluation { g with
      board := Function.update g.board i (if g.playerTurn then 1 else -1)
      nMoves := g.nMoves + 1 }).2 }

/-- The state `ResetPos` leaves. -/
def Game.clear (g : Game) (i : Fin 9) : Game :=
  { board := Function.update g.board i 0
    playerTurn := !g.playerTurn
    nMoves := g.nMoves - 1
    isOver := (Game.evaluation { g with
      board := Function.update g.board i 0, nMoves := g.nMoves - 1 }).1
    points := (Game.evaluation { g with
      board := Function.update g.board i 0, nMoves := g.nMoves - 1 }).2 }

/-- The copy of `g` with `Result(pos)` applied. -/
def Game.child (g : Game) (pos : Int) : Game := (Result pos g).state

/-- Value of the game tree below `g` on immutable copies, with the sentinels
and the move order of `minimax`. -/
def gameValue : Nat → Bool → Game → Int
  | 0, _, g => g.Score
  | depth + 1, maximizingPlayer, g =>
      if g.GameOver then g.Score
      else if maximizingPlayer then
        g.actions.foldl (fun m pos => max m (gameValue depth false (g.child pos))) (-1000)
      else
        g.actions.foldl (fun m pos => min m (gameValue depth true (g.child pos))) 1000

/-- The choice of the candidate loop as a function of the scores: a strictly
greater score replaces the best move so far. -/
def pickBest (score : Int → Int) : List Int → Int → Int → Int
  | [], _, bestMove => bestMove
  | pos :: rest, bestScore, bestMove =>
      if score pos > bestScore then pickBest score rest (score pos) pos
      else pickBest score rest bestScore bestMove

/-- The move `IntelligentMove` plays in `g`, as a function of the state. -/
def Game.bestMove (g : Game) : Int :=
  pickBest (fun pos => gameValue (g.actions.length - 1) false (g.child pos))
    g.actions (-1000) (g.actions.headD 0)

/-! ## Words of the specification -/

/-- The 8 lines: 3 rows, 3 columns, 2 diagonals. -/
def winLines : List (Fin 9 × Fin 9 × Fin 9) :=
  [(0, 1, 2), (3, 4, 5), (6, 7, 8), (0, 3, 6), (1, 4, 7), (2, 5, 8), (0, 4, 8), (2, 4, 6)]

/-- Number of the 8 lines whose three cells all hold `v`. -/
def ownedLines (b : Board) (v : Int) : Nat :=
  winLines.countP (fun l => decide (b l.1 = v ∧ b l.2.1 = v ∧ b l.2.2 = v))

/-- The 1-based positions of the empty cells, in ascending order. -/
def emptyPositions (b : Board) : List Int :=
  (boardIndices.filter (fun i => decide (b i = 0))).map (fun i => (i.val : Int) + 1)

/-- A board written as the list of its nine cells. -/
def boardOf (cells : List Int) : Board := fun i => cells.getD i.val 0

/-- The scenario of the specification: cells 1, 2 hold `1`, cells 4, 5 hold `-1`,
and the player with mark `1` is to move. -/
def scenarioTopRow : Game :=
  { board := boardOf [1, 1, 0, -1, -1, 0, 0, 0, 0], playerTurn := true, nMoves := 4,
    isOver := false, points := 0 }

/-- The legal game `1, 4, 2, 5, 3` from `New()`: the first player completes the
top row with the fifth move. -/
def topRowGame : Game := ((((New.child 1).child 4).child 2).child 5).child 3

/-- The state in which play of the engine against itself ends: the second
player owns the top row after six moves. -/
def selfPlayEnd : Game :=
  { board := boardOf [1, 1, 1, 0, -1, -1, 0, 0, -1], playerTurn := false, nMoves := 6,
    isOver := true, points := 1 }

/-- The cached pair `(isOver, points)` is what `Evaluate` computes from the
board and the counter for the player who is not to move. -/
def Cached (g : Game) : Prop :=
  g.isOver = (Game.evaluation { g with playerTurn := !g.playerTurn }).1
    ∧ g.points = (Game.evaluation { g with playerTurn := !g.playerTurn }).2

/-- The counter and the empty cells add up to the nine cells of the board. -/
def Counted (g : Game) : Prop :=
  ((emptyPositions g.board).length : Int) + g.nMoves = 9

/-- States reachable from `New()` by `Result` calls that return, that is, calls
on an empty cell. -/
inductive Reachable : Game → Prop where
  | new : Reachable New
  | step {g g1 : Game} (pos : Int) : Reachable g → Result pos g = .done () g1 → Reachable g1

/-- States reachable from `New()` by legal play: every `Result` call is on a
position that `Actions()` lists for the current state. -/
inductive Playable : Game → Prop where
  | new : Playable New
  | step {g g1 : Game} (pos : Int) :
      Playable g → pos ∈ g.actions → Result pos g = .done () g1 → Playable g1

/-- A list of positions that all name empty cells of `g`. -/
def EmptyCells (g : Game) (l : List Int) : Prop :=
  ∀ pos ∈ l, ∃ i : Fin 9, g.board i = 0 ∧ pos = (i.val : Int) + 1

/-- What a search with window `(alpha, beta)` may return, `r`, when the value
of the node is `v`: the value itself inside the window, and a number on the same
side of the window outside it. -/
def WindowSpec (alpha beta v r : Int) : Prop :=
  (-1000 ≤ r ∧ r ≤ 1000) ∧ (v ≤ alpha → r ≤ alpha) ∧ (beta ≤ v → beta ≤ r)
    ∧ (alpha < v → v < beta → r = v)

/-- Play with one engine for both sides, as the loop of `main` does for its
first player: `move` is called until `GameOver()` holds.  A game has at most
nine moves; `fuel` bounds the number of passes. -/
def selfPlay (move : GoM Unit) : Nat → GoM Unit
  | 0 => pure ()
  | fuel + 1 => do
      let g ← getGame
      if g.GameOver then pure ()
      else do
        move
        selfPlay move fuel

/-! ## Compact boards

A second representation of the states, used to evaluate the searches on
concrete positions: the cells holding `1` and the cells holding `-1` as two bit
masks.  `Bits.game` reads a compact state back as a `Game`; the functions below
are proved equal to the embedded searches further down. -/

/-- A state in compact form: bit `i` of `x` is set when cell `i` holds `1`, bit
`i` of `o` when it holds `-1`; `n` is `nMoves` and `turn` is `playerTurn`. -/
structure Bits where
  x : Nat
  o : Nat
  n : Nat
  turn : Bool

/-- Evaluate a natural number before it is passed on. -/
def forceNat {α : Type} (n : Nat) (k : Nat → α) : α :=
  match n with
  | 0 => k 0
  | m + 1 => k (m + 1)

/-- Evaluate an integer before it is passed on. -/
def forceInt {α : Type} (z : Int) (k : Int → α) : α :=
  match z with
  | .ofNat n => forceNat n (fun n => k (.ofNat n))
  | .negSucc n => forceNat n (fun n => k (.negSucc n))

/-- Evaluate the fields of a compact state before it is passed on. -/
def Bits.force {α : Type} (s : Bits) (k : Bits → α) : α :=
  forceNat s.x fun x => forceNat s.o fun o => forceNat s.n fun n =>
    match s.turn with
    | true => k ⟨x, o, n, true⟩
    | false => k ⟨x, o, n, false⟩

/-- `1` when all bits of `mask` are set in `m`, else `0`. -/
def hit (m mask : Nat) : Nat := bif Nat.beq (Nat.land m mask) mask then 1 else 0

/-- Number of the 8 lines all of whose cells are in the mask `m`. -/
def lineCount (m : Nat) : Nat :=
  hit m 7 + hit m 56 + hit m 448 + hit m 73 + hit m 146 + hit m 292 + hit m 273 + hit m 84

/-- The cached `isOver` of a compact state. -/
def Bits.over (s : Bits) : Bool :=
  Nat.beq s.n 9 || (!(Nat.beq (lineCount s.x) 0) || !(Nat.beq (lineCount s.o) 0))

/-- The cached `points` of a compact state: the tally of the player who is not
to move, with the sign `Evaluate` gives it. -/
def Bits.points (s : Bits) : Int :=
  bif s.turn then Int.negOfNat (lineCount s.o) else Int.ofNat (lineCount s.x)

/-- Cell `i` is empty. -/
def Bits.free (s : Bits) (i : Fin 9) : Bool := !Nat.testBit (Nat.lor s.x s.o) i.val

/-- The compact state after a move of the player to move on cell `i`. -/
def Bits.place (s : Bits) (i : Fin 9) : Bits :=
  bif s.turn then { x := Nat.lor s.x (2 ^ i.val), o := s.o, n := s.n + 1, turn := false }
  else { x := s.x, o := Nat.lor s.o (2 ^ i.val), n := s.n + 1, turn := true }

/-- The positions `Actions` lists among the cells `cs`. -/
def Bits.positions (s : Bits) (cs : List (Fin 9)) : List Int :=
  (cs.filter (fun i => s.free i)).map (fun i => (i.val : Int) + 1)

/-- The state a compact state stands for. -/
def Bits.game (s : Bits) : Game :=
  { board := fun i =>
      if Nat.testBit s.x i.val then 1 else if Nat.testBit s.o i.val then -1 else 0
    playerTurn := s.turn
    nMoves := (s.n : Int)
    isOver := s.over
    points := s.points }

/-- No cell holds both marks. -/
def Bits.Valid (s : Bits) : Prop :=
  ∀ i : Nat, ¬ (Nat.testBit s.x i = true ∧ Nat.testBit s.o i = true)

/-- The loop of the maximizing branch of `minimaxAlphaBeta` over the cells
`cs` of a compact state. -/
def fastAlphaLoop (child : Int → Int → Bits → Int) (s : Bits) (beta : Int) :
    List (Fin 9) → Int → Int → Int
  | [], maxEval, _ => maxEval
  | i :: rest, maxEval, alpha =>
      bif s.free i then
        (s.place i).force fun s1 =>
        forceInt (child alpha beta s1) fun eval =>
        forceInt (max maxEval eval) fun maxEval1 =>
        forceInt (max alpha eval) fun alpha1 =>
        if beta ≤ alpha1 then maxEval1 else fastAlphaLoop child s beta rest maxEval1 alpha1
      else fastAlphaLoop child s beta rest maxEval alpha

/-- The loop of the minimizing branch over the cells `cs` of a compact state. -/
def fastBetaLoop (child : Int → Int → Bits → Int) (s : Bits) (alpha : Int) :
    List (Fin 9) → Int → Int → Int
  | [], minEval, _ => minEval
  | i :: rest, minEval, beta =>
      bif s.free i then
        (s.place i).force fun s1 =>
        forceInt (child alpha beta s1) fun eval =>
        forceInt (min minEval eval) fun minEval1 =>
        forceInt (min beta eval) fun beta1 =>
        if beta1 ≤ alpha then minEval1 else fastBetaLoop child s alpha rest minEval1 beta1
      else fastBetaLoop child s alpha rest minEval beta

/-- `minimaxAlphaBeta` on compact states. -/
def fastAlphaBeta : Nat → Int → Int → Bool → Bits → Int
  | 0, _, _, _, s => s.points
  | depth + 1, alpha, beta, maximizingPlayer, s =>
      bif s.over then s.points
      else bif maximizingPlayer then
        fastAlphaLoop (fun a b s1 => fastAlphaBeta depth a b false s1) s beta boardIndices
          (-1000) alpha
      else
        fastBetaLoop (fun a b s1 => fastAlphaBeta depth a b true s1) s alpha boardIndices
          1000 beta

/-- The candidate loop over the cells `cs` of a compact state. -/
def fastPick (score : Fin 9 → Int) (s : Bits) : List (Fin 9) → Int → Int → Int
  | [], _, bestMove => bestMove
  | i :: rest, bestScore, bestMove =>
      bif s.free i then
        forceInt (score i) fun sc =>
        if sc > bestScore then fastPick score s rest sc ((i.val : Int) + 1)
        else fastPick score s rest bestScore bestMove
      else fastPick score s rest bestScore bestMove

/-- The move the engine plays in a compact state. -/
def Bits.bestMove (s : Bits) : Int :=
  fastPick
    (fun i => (s.place i).force fun s1 =>
      fastAlphaBeta ((s.positions boardIndices).length - 1) (-1000) 1000 false s1)
    s boardIndices (-1000) ((s.positions boardIndices).headD 0)

/-! ## The remaining operations and the words of further scenarios -/

/-- `rand.Intn(n)`: panics when `n <= 0`; otherwise it returns a number of
`[0, n)`.  The random source is the parameter `draw`, of which the remainder is
taken, so that every number of `[0, n)` is returned for some draw. -/
def randIntn (draw : Nat) (n : Int) : GoM Int := fun g =>
  if n ≤ 0 then .fault .invalidArgument g else .done ((draw : Int) % n) g

/-- The slice access `choices[choice]` with its run-time bounds check. -/
def sliceAt (choices : List Int) (choice : Int) : GoM Int := fun g =>
  if h : 0 ≤ choice ∧ choice < choices.length then
    .done (choices.get ⟨choice.toNat, by omega⟩) g
  else .fault .indexOutOfRange g

/-- `RandomMove`, for the random draw `draw`. -/
def RandomMove (draw : Nat) : GoM Unit := do
  let g ← getGame
  if g.isOver then pure ()
  else do
    let choices ← Actions
    let choice ← randIntn draw choices.length
    let pos ← sliceAt choices choice
    Result pos

/-- A sequence of `Result` calls, in the order of the list. -/
def playMoves : List Int → GoM Unit
  | [] => pure ()
  | pos :: rest => do
      Result pos
      playMoves rest

/-- The loop of `main`: while the game is not over the engine moves with
`IntelligentMoveAlphaBeta`, `Actions()` is read for the prompt, `fmt.Scan` reads
the next position into `user_input` and `Result` plays it.  The list holds the
positions still on the input; once it is empty `fmt.Scan` fails, its error is
dropped, `user_input` keeps its value and the loop goes on.  Printing is left
out; `fuel` bounds the number of passes. -/
def mainLoop : Nat → Int → List Int → GoM Unit
  | 0, _, _ => pure ()
  | fuel + 1, user_input, input => do
      let g ← getGame
      if g.GameOver then pure ()
      else do
        IntelligentMoveAlphaBeta
        let _availableActions ← Actions
        let user_input := input.headD user_input
        Result user_input
        mainLoop fuel user_input input.tail

/-- `main`: a new game and `user_input := 0`, then the loop. -/
def main (fuel : Nat) (input : List Int) : Run Unit :=
  mainLoop fuel 0 input New

/-- States reachable from `New()` by `Result` calls on empty cells interleaved
with `ResetPos` calls that undo the most recent move not yet undone.  The list
holds the positions applied and not yet undone, the most recent first. -/
inductive LifoReachable : List Int → Game → Prop where
  | new : LifoReachable [] New
  | apply {stack : List Int} {g g1 : Game} (pos : Int) :
      LifoReachable stack g → Result pos g = .done () g1 → LifoReachable (pos :: stack) g1
  | undo {stack : List Int} {g g1 : Game} (pos : Int) :
      LifoReachable (pos :: stack) g → ResetPos pos g = .done () g1 → LifoReachable stack g1

/-- The state is the one reached from `New()` by `Result` on the positions of
the list, the head being the last one played. -/
def Along : List Int → Game → Prop
  | [], g => g = New
  | pos :: stack, g => ∃ g0, Along stack g0 ∧ Result pos g0 = .done () g

/-- Number of non-empty cells of a board. -/
def markedCells (b : Board) : Nat :=
  boardIndices.countP (fun i => decide (b i ≠ 0))

/-- Maximum of a list of values; the specification takes it over the moves of a
state that has some, and `0` stands for the case it leaves open. -/
def maxOf : List Int → Int
  | [] => 0
  | v :: vs => vs.foldl max v

/-- Minimum of a list of values, with the same convention. -/
def minOf : List Int → Int
  | [] => 0
  | v :: vs => vs.foldl min v

/-- The reference value `V(s, d, mx)` of the specification, on immutable
copies: `s.Score()` if `s` is terminal or `d = 0`, otherwise the maximum (if
`mx`) or minimum over the moves `m` of `s.Actions()` of
`V(copy of s with Result(m) applied, d-1, not mx)`. -/
def refValue : Nat → Bool → Game → Int
  | 0, _, s => s.Score
  | d + 1, mx, s =>
      if s.GameOver then s.Score
      else if mx then maxOf (s.actions.map (fun m => refValue d (!mx) (s.child m)))
      else minOf (s.actions.map (fun m => refValue d (!mx) (s.child m)))

/-- The legal game `1, 4, 2, 5, 7, 9, 8, 6`: the second player completes the
middle row with the eighth move and cell 3 stays empty. -/
def lateWinGame : Game :=
  (((((((New.child 1).child 4).child 2).child 5).child 7).child 9).child 8).child 6

/-- The legal game `1, 3, 2, 4, 6, 5, 7, 9`: eight moves without a line, cell 8
is the only empty one. -/
def lastCellGame : Game :=
  (((((((New.child 1).child 3).child 2).child 4).child 6).child 5).child 7).child 9

/-- The legal game `1, 2, 3, 4, 5, 7`: the first player, mark `-1`, is to move
and completes a diagonal with position 9. -/
def firstCanWin : Game :=
  (((((New.child 1).child 2).child 3).child 4).child 5).child 7

/-- The legal game `1, 2, 3, 5, 7`: the second player, mark `1`, is to move and
completes the middle column with position 8. -/
def secondCanWin : Game :=
  ((((New.child 1).child 2).child 3).child 5).child 7

/-- The legal game `5, 1, 9, 3, 6`: the second player, mark `1`, is to move and
completes the top row with position 2. -/
def topRowOpen : Game :=
  ((((New.child 5).child 1).child 9).child 3).child 6

/-- The state after the nine `Result` calls on positions 1 to 9 in order: the
first player holds the odd positions and owns both diagonals. -/
def nineMovesEnd : Game :=
  { board := boardOf [-1, 1, -1, 1, -1, 1, -1, 1, -1], playerTurn := true, nMoves := 9,
    isOver := true, points := -2 }

/-! ## The state operations as functions -/

theorem Game.eq_iff (a b : Game) :
    a = b ↔ a.board = b.board ∧ a.playerTurn = b.playerTurn ∧ a.nMoves = b.nMoves
      ∧ a.isOver = b.isOver ∧ a.points = b.points := by
  cases a; cases b; simp

theorem Evaluate_run (g : Game) : Evaluate g = .done g.evaluation g := by
  unfold Evaluate Game.evaluation
  simp only [bind, GoM.bind, getGame]
  cases g.playerTurn <;> rfl

theorem Actions_run (g : Game) : Actions g = .done g.actions g := by
  unfold Actions Game.actions
  simp only [bind, GoM.bind, getGame]
  cases g.isOver <;> rfl

theorem bind_getGame {α : Type} (f : Game → GoM α) (g : Game) :
    GoM.bind getGame f g = f g g := rfl

theorem bind_setGame {α : Type} (g1 : Game) (f : Unit → GoM α) (g : Game) :
    GoM.bind (setGame g1) f g = f () g1 := rfl

theorem bind_of_done {α β : Type} {m : GoM α} {g g1 : Game} {a : α} (h : m g = .done a g1)
    (f : α → GoM β) : GoM.bind m f g = f a g1 := by
  unfold GoM.bind
  rw [h]

theorem bind_of_fault {α β : Type} {m : GoM α} {g g1 : Game} {p : GoPanic}
    (h : m g = .fault p g1) (f : α → GoM β) : GoM.bind m f g = .fault p g1 := by
  unfold GoM.bind
  rw [h]

theorem bind_Evaluate {α : Type} (f : Bool × Int → GoM α) (g : Game) :
    GoM.bind Evaluate f g = f g.evaluation g :=
  bind_of_done (Evaluate_run g) f

theorem bind_Actions {α : Type} (f : List Int → GoM α) (g : Game) :
    GoM.bind Actions f g = f g.actions g :=
  bind_of_done (Actions_run g) f

theorem Result_run (pos : Int) (g : Game) :
    Result pos g =
      if h : 0 ≤ pos - 1 ∧ pos - 1 < 9 then
        if g.board (cellOf pos h) ≠ 0 then .fault .positionAlreadyMarked g
        else .done () (g.place (cellOf pos h))
      else .fault .indexOutOfRange g := by
  unfold Result
  simp only [bind]
  by_cases h : 0 ≤ pos - 1 ∧ pos - 1 < 9
  · have hi : boardIndex (pos - 1) g = .done (cellOf pos h) g := by
      unfold boardIndex
      rw [dif_pos h]
      rfl
    rw [dif_pos h, bind_of_done hi, bind_getGame]
    by_cases hc : g.board (cellOf pos h) = 0
    · rw [if_neg (not_not.mpr hc), if_neg (not_not.mpr hc)]
      simp only [bind_getGame, bind_setGame, bind_Evaluate]
      rfl
    · rw [if_pos hc, if_pos hc]
      rfl
  · have hi : boardIndex (pos - 1) g = .fault .indexOutOfRange g := by
      unfold boardIndex
      rw [dif_neg h]
    rw [dif_neg h, bind_of_fault hi]

theorem ResetPos_run (pos : Int) (g : Game) :
    ResetPos pos g =
      if h : 0 ≤ pos - 1 ∧ pos - 1 < 9 then .done () (g.clear (cellOf pos h))
      else .fault .indexOutOfRange g := by
  unfold ResetPos
  simp only [bind]
  by_cases h : 0 ≤ pos - 1 ∧ pos - 1 < 9
  · have hi : boardIndex (pos - 1) g = .done (cellOf pos h) g := by
      unfold boardIndex
      rw [dif_pos h]
      rfl
    rw [dif_pos h, bind_of_done hi]
    simp only [bind_getGame, bind_setGame, bind_Evaluate]
    rfl
  · have hi : boardIndex (pos - 1) g = .fault .indexOutOfRange g := by
      unfold boardIndex
      rw [dif_neg h]
    rw [dif_neg h, bind_of_fault hi]

theorem evaluation_congr {a b : Game} (h1 : a.board = b.board) (h2 : a.nMoves = b.nMoves)
    (h3 : a.playerTurn = b.playerTurn) : a.evaluation = b.evaluation := by
  unfold Game.evaluation
  rw [h1, h2, h3]

theorem cached_New : Cached New := by
  constructor <;> decide

theorem cached_place (g : Game) (i : Fin 9) : Cached (g.place i) := by
  have h : (Game.evaluation { g.place i with playerTurn := !(g.place i).playerTurn })
      = (Game.evaluation { g with
          board := Function.update g.board i (if g.playerTurn then 1 else -1)
          nMoves := g.nMoves + 1 }) :=
    evaluation_congr rfl rfl (by simp [Game.place])
  exact ⟨by rw [h]; rfl, by rw [h]; rfl⟩

theorem Result_done_iff {pos : Int} {g g1 : Game} :
    Result pos g = .done () g1 ↔
      ∃ h : 0 ≤ pos - 1 ∧ pos - 1 < 9, g.board (cellOf pos h) = 0 ∧ g1 = g.place (cellOf pos h) := by
  rw [Result_run]
  by_cases h : 0 ≤ pos - 1 ∧ pos - 1 < 9
  · rw [dif_pos h]
    by_cases hc : g.board (cellOf pos h) = 0
    · rw [if_neg (not_not.mpr hc)]
      constructor
      · intro e
        injection e with _ e
        exact ⟨h, hc, e.symm⟩
      · rintro ⟨_, _, e⟩
        rw [e]
    · rw [if_pos hc]
      constructor
      · intro e; cases e
      · rintro ⟨_, e, _⟩; exact absurd e hc
  · rw [dif_neg h]
    constructor
    · intro e; cases e
    · rintro ⟨h2, _⟩; exact absurd h2 h

theorem Reachable.cached {g : Game} (hg : Reachable g) : Cached g := by
  cases hg with
  | new => exact cached_New
  | step pos _ hr =>
      obtain ⟨h, _, rfl⟩ := Result_done_iff.mp hr
      exact cached_place _ _

theorem Playable.reachable {g : Game} (hg : Playable g) : Reachable g := by
  induction hg with
  | new => exact Reachable.new
  | step pos _ _ hr ih => exact Reachable.step pos ih hr

theorem clear_place {g : Game} (hg : Cached g) {i : Fin 9} (hi : g.board i = 0) :
    (g.place i).clear i = g := by
  obtain ⟨h1, h2⟩ := hg
  have hb : Function.update (Function.update g.board i (if g.playerTurn then 1 else -1)) i 0
      = g.board := by
    rw [Function.update_idem, ← hi, Function.update_eq_self]
  have he : (Game.evaluation { g.place i with
        board := Function.update (g.place i).board i 0, nMoves := (g.place i).nMoves - 1 })
      = (Game.evaluation { g with playerTurn := !g.playerTurn }) :=
    evaluation_congr hb (by simp [Game.place]) rfl
  rw [Game.eq_iff]
  refine ⟨hb, ?_, ?_, ?_, ?_⟩
  · simp [Game.place, Game.clear]
  · simp [Game.place, Game.clear]
  · rw [h1, ← he]; rfl
  · rw [h2, ← he]; rfl

/-! ## The list of available moves -/

theorem foldl_append_if {α β : Type} (p : α → Prop) [DecidablePred p] (f : α → β) :
    ∀ (l : List α) (init : List β),
      l.foldl (fun acc x => if p x then acc ++ [f x] else acc) init
        = init ++ (l.filter (fun x => decide (p x))).map f
  | [], init => by simp
  | x :: l, init => by
      rw [List.foldl_cons, foldl_append_if p f l]
      by_cases h : p x
      · simp [h, List.filter_cons]
      · simp [h, List.filter_cons]

theorem actions_eq (g : Game) :
    g.actions = if g.isOver then [] else emptyPositions g.board := by
  unfold Game.actions emptyPositions
  split
  · rfl
  · rw [foldl_append_if (fun i => g.board i = 0) (fun i : Fin 9 => (i.val : Int) + 1)]
    simp

theorem mem_boardIndices (i : Fin 9) : i ∈ boardIndices := by
  fin_cases i <;> simp [boardIndices]

theorem mem_emptyPositions {b : Board} {pos : Int} :
    pos ∈ emptyPositions b ↔ ∃ i : Fin 9, b i = 0 ∧ pos = (i.val : Int) + 1 := by
  simp only [emptyPositions, List.mem_map, List.mem_filter, decide_eq_true_eq]
  constructor
  · rintro ⟨i, ⟨_, hi⟩, rfl⟩; exact ⟨i, hi, rfl⟩
  · rintro ⟨i, hi, rfl⟩; exact ⟨i, ⟨mem_boardIndices i, hi⟩, rfl⟩

theorem mem_actions {g : Game} {pos : Int} :
    pos ∈ g.actions ↔ g.isOver = false ∧ ∃ i : Fin 9, g.board i = 0 ∧ pos = (i.val : Int) + 1 := by
  rw [actions_eq]
  cases h : g.isOver
  · simp only [Bool.false_eq_true, if_false, mem_emptyPositions, true_and]
  · simp

theorem cellOf_succ (i : Fin 9) (h : 0 ≤ ((i.val : Int) + 1) - 1 ∧ ((i.val : Int) + 1) - 1 < 9) :
    cellOf ((i.val : Int) + 1) h = i := by
  apply Fin.ext
  simp [cellOf]

theorem Result_empty {g : Game} {i : Fin 9} (hi : g.board i = 0) :
    Result ((i.val : Int) + 1) g = .done () (g.place i) := by
  have h : 0 ≤ ((i.val : Int) + 1) - 1 ∧ ((i.val : Int) + 1) - 1 < 9 := by omega
  rw [Result_run, dif_pos h, cellOf_succ, if_neg (not_not.mpr hi)]

theorem child_empty {g : Game} {i : Fin 9} (hi : g.board i = 0) :
    g.child ((i.val : Int) + 1) = g.place i := by
  unfold Game.child
  rw [Result_empty hi]
  rfl

theorem ResetPos_place {g : Game} (hg : Cached g) {i : Fin 9} (hi : g.board i = 0) :
    ResetPos ((i.val : Int) + 1) (g.place i) = .done () g := by
  have h : 0 ≤ ((i.val : Int) + 1) - 1 ∧ ((i.val : Int) + 1) - 1 < 9 := by omega
  rw [ResetPos_run, dif_pos h, cellOf_succ, clear_place hg hi]

theorem emptyCells_actions (g : Game) : EmptyCells g g.actions := fun _ h =>
  (mem_actions.mp h).2

theorem cached_child {g : Game} {l : List Int} (hl : EmptyCells g l) {pos : Int} (hp : pos ∈ l) :
    Cached (g.child pos) := by
  obtain ⟨i, hi, rfl⟩ := hl pos hp
  rw [child_empty hi]
  exact cached_place g i

/-! ## The searches as functions -/

theorem ite_lt_eq_max (m r : Int) : (if m < r then r else m) = max m r := by
  split <;> omega

theorem ite_gt_eq_min (m r : Int) : (if m > r then r else m) = min m r := by
  split <;> omega

theorem maxLoop_run (child : GoM Int) (f : Game → Int) {g : Game} (hg : Cached g) :
    ∀ (l : List Int) (m : Int), EmptyCells g l →
      (∀ pos ∈ l, child (g.child pos) = .done (f (g.child pos)) (g.child pos)) →
      maxLoop child l m g = .done (l.foldl (fun m pos => max m (f (g.child pos))) m) g
  | [], m, _, _ => rfl
  | pos :: rest, m, hl, hc => by
      obtain ⟨i, hi, hpos⟩ := hl pos (List.mem_cons_self _ _)
      have h1 := hc pos (List.mem_cons_self _ _)
      have ih := maxLoop_run child f hg rest (max m (f (g.child pos)))
        (fun p hp => hl p (List.mem_cons_of_mem _ hp))
        (fun p hp => hc p (List.mem_cons_of_mem _ hp))
      subst hpos
      rw [child_empty hi] at h1
      rw [List.foldl_cons, ← ih]
      simp only [maxLoop, bind, GoM.bind, Result_empty hi, h1, ResetPos_place hg hi,
        ite_lt_eq_max, child_empty hi]

theorem minLoop_run (child : GoM Int) (f : Game → Int) {g : Game} (hg : Cached g) :
    ∀ (l : List Int) (m : Int), EmptyCells g l →
      (∀ pos ∈ l, child (g.child pos) = .done (f (g.child pos)) (g.child pos)) →
      minLoop child l m g = .done (l.foldl (fun m pos => min m (f (g.child pos))) m) g
  | [], m, _, _ => rfl
  | pos :: rest, m, hl, hc => by
      obtain ⟨i, hi, hpos⟩ := hl pos (List.mem_cons_self _ _)
      have h1 := hc pos (List.mem_cons_self _ _)
      have ih := minLoop_run child f hg rest (min m (f (g.child pos)))
        (fun p hp => hl p (List.mem_cons_of_mem _ hp))
        (fun p hp => hc p (List.mem_cons_of_mem _ hp))
      subst hpos
      rw [child_empty hi] at h1
      rw [List.foldl_cons, ← ih]
      simp only [minLoop, bind, GoM.bind, Result_empty hi, h1, ResetPos_place hg hi,
        ite_gt_eq_min, child_empty hi]

theorem minimax_run : ∀ (depth : Nat) (maximizingPlayer : Bool) (g : Game), Cached g →
    minimax depth maximizingPlayer g = .done (gameValue depth maximizingPlayer g) g
  | 0, _, _, _ => rfl
  | depth + 1, mx, g, hg => by
      have hc : ∀ b, ∀ pos ∈ g.actions, minimax depth b (g.child pos)
          = .done (gameValue depth b (g.child pos)) (g.child pos) := fun b pos hp =>
        minimax_run depth b (g.child pos) (cached_child (emptyCells_actions g) hp)
      unfold minimax gameValue
      simp only [bind, bind_getGame]
      cases hover : g.GameOver
      · cases mx
        · simp only [Bool.false_eq_true, if_false, bind_Actions]
          exact minLoop_run _ _ hg _ _ (emptyCells_actions g) (hc true)
        · simp only [Bool.false_eq_true, if_false, if_true, bind_Actions]
          exact maxLoop_run _ _ hg _ _ (emptyCells_actions g) (hc false)
      · simp only [if_true]
        rfl


theorem rowStep_bounds (b : Board) (s : Int × Int) (row : Fin 3) :
    (s.1 ≤ (rowStep b s row).1 ∧ (rowStep b s row).1 ≤ s.1 + 1)
      ∧ (s.2 ≤ (rowStep b s row).2 ∧ (rowStep b s row).2 ≤ s.2 + 1) := by
  unfold rowStep
  refine ⟨?_, ?_⟩ <;> (dsimp only; split <;> omega)

theorem colStep_bounds (b : Board) (s : Int × Int) (col : Fin 3) :
    (s.1 ≤ (colStep b s col).1 ∧ (colStep b s col).1 ≤ s.1 + 1)
      ∧ (s.2 ≤ (colStep b s col).2 ∧ (colStep b s col).2 ≤ s.2 + 1) := by
  unfold colStep
  refine ⟨?_, ?_⟩ <;> (dsimp only; split <;> omega)

theorem diagStep_bounds (b : Board) (s : Int × Int) :
    (s.1 ≤ (diagStep b s).1 ∧ (diagStep b s).1 ≤ s.1 + 2)
      ∧ (s.2 ≤ (diagStep b s).2 ∧ (diagStep b s).2 ≤ s.2 + 2) := by
  unfold diagStep
  refine ⟨?_, ?_⟩ <;> (dsimp only; split <;> split <;> omega)

theorem tallies_bounds (b : Board) :
    (0 ≤ (tallies b).1 ∧ (tallies b).1 ≤ 8) ∧ (0 ≤ (tallies b).2 ∧ (tallies b).2 ≤ 8) := by
  unfold tallies
  simp only [List.foldl_cons, List.foldl_nil]
  have r0 := rowStep_bounds b (0, 0) 0
  have r1 := rowStep_bounds b (rowStep b (0, 0) 0) 1
  have r2 := rowStep_bounds b (rowStep b (rowStep b (0, 0) 0) 1) 2
  have c0 := colStep_bounds b (rowStep b (rowStep b (rowStep b (0, 0) 0) 1) 2) 0
  have c1 := colStep_bounds b (colStep b (rowStep b (rowStep b (rowStep b (0, 0) 0) 1) 2) 0) 1
  have c2 := colStep_bounds b
    (colStep b (colStep b (rowStep b (rowStep b (rowStep b (0, 0) 0) 1) 2) 0) 1) 2
  have d := diagStep_bounds b (colStep b
    (colStep b (colStep b (rowStep b (rowStep b (rowStep b (0, 0) 0) 1) 2) 0) 1) 2)
  dsimp only at r0
  omega

theorem evaluation_bounds (g : Game) : -8 ≤ g.evaluation.2 ∧ g.evaluation.2 ≤ 8 := by
  have h := tallies_bounds g.board
  unfold Game.evaluation
  split <;> (dsimp only; omega)

theorem Cached.points_bounds {g : Game} (hg : Cached g) : -8 ≤ g.points ∧ g.points ≤ 8 := by
  rw [hg.2]
  exact evaluation_bounds _

theorem foldl_max_bounds {α : Type} (f : α → Int) (lo hi : Int) :
    ∀ (l : List α) (m : Int), lo ≤ m → m ≤ hi → (∀ x ∈ l, lo ≤ f x ∧ f x ≤ hi) →
      lo ≤ l.foldl (fun m x => max m (f x)) m ∧ l.foldl (fun m x => max m (f x)) m ≤ hi
  | [], m, h1, h2, _ => ⟨h1, h2⟩
  | x :: l, m, h1, h2, h => by
      have hx := h x (List.mem_cons_self _ _)
      rw [List.foldl_cons]
      exact foldl_max_bounds f lo hi l _ (by omega) (by omega)
        (fun y hy => h y (List.mem_cons_of_mem _ hy))

theorem foldl_min_bounds {α : Type} (f : α → Int) (lo hi : Int) :
    ∀ (l : List α) (m : Int), lo ≤ m → m ≤ hi → (∀ x ∈ l, lo ≤ f x ∧ f x ≤ hi) →
      lo ≤ l.foldl (fun m x => min m (f x)) m ∧ l.foldl (fun m x => min m (f x)) m ≤ hi
  | [], m, h1, h2, _ => ⟨h1, h2⟩
  | x :: l, m, h1, h2, h => by
      have hx := h x (List.mem_cons_self _ _)
      rw [List.foldl_cons]
      exact foldl_min_bounds f lo hi l _ (by omega) (by omega)
        (fun y hy => h y (List.mem_cons_of_mem _ hy))

theorem gameValue_bounds : ∀ (depth : Nat) (mx : Bool) (g : Game), Cached g →
    -1000 ≤ gameValue depth mx g ∧ gameValue depth mx g ≤ 1000
  | 0, _, g, hg => by
      have h := hg.points_bounds
      simp only [gameValue, Game.Score]
      omega
  | depth + 1, mx, g, hg => by
      have h := hg.points_bounds
      have hc : ∀ b, ∀ pos ∈ g.actions, -1000 ≤ gameValue depth b (g.child pos)
          ∧ gameValue depth b (g.child pos) ≤ 1000 := fun b pos hp =>
        gameValue_bounds depth b (g.child pos) (cached_child (emptyCells_actions g) hp)
      unfold gameValue
      split
      · simp only [Game.Score]; omega
      · split
        · exact foldl_max_bounds _ _ _ _ _ (by omega) (by omega) (hc false)
        · exact foldl_min_bounds _ _ _ _ _ (by omega) (by omega) (hc true)

theorem le_foldl_max {α : Type} (f : α → Int) :
    ∀ (l : List α) (m : Int), m ≤ l.foldl (fun m x => max m (f x)) m
  | [], m => le_refl m
  | x :: l, m => by
      have h := le_foldl_max f l (max m (f x))
      rw [List.foldl_cons]
      omega

theorem foldl_min_le {α : Type} (f : α → Int) :
    ∀ (l : List α) (m : Int), l.foldl (fun m x => min m (f x)) m ≤ m
  | [], m => le_refl m
  | x :: l, m => by
      have h := foldl_min_le f l (min m (f x))
      rw [List.foldl_cons]
      omega


theorem alphaLoop_run (child : Int → Int → GoM Int) (f : Game → Int) {g : Game}
    (hg : Cached g) (alpha0 beta : Int) (h0 : -1000 ≤ alpha0) (hb : beta ≤ 1000) :
    ∀ (l : List Int) (m v alpha : Int), EmptyCells g l →
      (∀ pos ∈ l, ∀ a b, -1000 ≤ a → a < b → b ≤ 1000 →
        ∃ r, child a b (g.child pos) = .done r (g.child pos) ∧ WindowSpec a b (f (g.child pos)) r) →
      -1000 ≤ m → m ≤ 1000 → alpha = max alpha0 m → max alpha0 v = alpha → alpha < beta →
      ∃ r, alphaLoop child beta l m alpha g = .done r g
        ∧ WindowSpec alpha0 beta (l.foldl (fun v pos => max v (f (g.child pos))) v) r
  | [], m, v, alpha, _, _, hm1, hm2, ha, hv, hab => by
      refine ⟨m, rfl, ⟨hm1, hm2⟩, ?_, ?_, ?_⟩ <;> simp only [List.foldl_nil] <;> omega
  | pos :: rest, m, v, alpha, hl, hc, hm1, hm2, ha, hv, hab => by
      obtain ⟨i, hi, hpos⟩ := hl pos (List.mem_cons_self _ _)
      obtain ⟨r, hr, ⟨hr1, hr2⟩, hlo, hhi, hin⟩ :=
        hc pos (List.mem_cons_self _ _) alpha beta (by omega) hab hb
      have hge := le_foldl_max (fun pos => f (g.child pos)) rest (max v (f (g.child pos)))
      subst hpos
      rw [child_empty hi] at hr
      by_cases hcut : beta ≤ max alpha r
      · refine ⟨max m r, ?_, ⟨by omega, by omega⟩, ?_, ?_, ?_⟩
        · simp only [alphaLoop, bind, GoM.bind, Result_empty hi, hr, ResetPos_place hg hi,
            ite_lt_eq_max, if_pos hcut]
          rfl
        · intro h
          rw [List.foldl_cons] at h
          by_cases h1 : f (g.child ((i.val : Int) + 1)) ≤ alpha
          · have := hlo h1; omega
          · by_cases h2 : f (g.child ((i.val : Int) + 1)) < beta
            · have := hin (by omega) h2; omega
            · omega
        · intro _
          omega
        · intro _ h
          rw [List.foldl_cons] at h
          by_cases h1 : f (g.child ((i.val : Int) + 1)) ≤ alpha
          · have := hlo h1; omega
          · by_cases h2 : f (g.child ((i.val : Int) + 1)) < beta
            · have := hin (by omega) h2; omega
            · omega
      · have ih := alphaLoop_run child f hg alpha0 beta h0 hb rest (max m r)
          (max v (f (g.child ((i.val : Int) + 1)))) (max alpha r)
          (fun p hp => hl p (List.mem_cons_of_mem _ hp))
          (fun p hp => hc p (List.mem_cons_of_mem _ hp))
          (by omega) (by omega) (by omega)
          (by
            by_cases h1 : f (g.child ((i.val : Int) + 1)) ≤ alpha
            · have := hlo h1; omega
            · by_cases h2 : f (g.child ((i.val : Int) + 1)) < beta
              · have := hin (by omega) h2; omega
              · have := hhi (by omega); omega)
          (by omega)
        obtain ⟨r2, hr2, hspec⟩ := ih
        refine ⟨r2, ?_, ?_⟩
        · rw [← hr2]
          simp only [alphaLoop, bind, GoM.bind, Result_empty hi, hr, ResetPos_place hg hi,
            ite_lt_eq_max, if_neg hcut]
        · rw [List.foldl_cons]
          exact hspec

theorem betaLoop_run (child : Int → Int → GoM Int) (f : Game → Int) {g : Game}
    (hg : Cached g) (alpha beta0 : Int) (h0 : -1000 ≤ alpha) (hb : beta0 ≤ 1000) :
    ∀ (l : List Int) (m v beta : Int), EmptyCells g l →
      (∀ pos ∈ l, ∀ a b, -1000 ≤ a → a < b → b ≤ 1000 →
        ∃ r, child a b (g.child pos) = .done r (g.child pos) ∧ WindowSpec a b (f (g.child pos)) r) →
      -1000 ≤ m → m ≤ 1000 → beta = min beta0 m → min beta0 v = beta → alpha < beta →
      ∃ r, betaLoop child alpha l m beta g = .done r g
        ∧ WindowSpec alpha beta0 (l.foldl (fun v pos => min v (f (g.child pos))) v) r
  | [], m, v, beta, _, _, hm1, hm2, ha, hv, hab => by
      refine ⟨m, rfl, ⟨hm1, hm2⟩, ?_, ?_, ?_⟩ <;> simp only [List.foldl_nil] <;> omega
  | pos :: rest, m, v, beta, hl, hc, hm1, hm2, ha, hv, hab => by
      obtain ⟨i, hi, hpos⟩ := hl pos (List.mem_cons_self _ _)
      obtain ⟨r, hr, ⟨hr1, hr2⟩, hlo, hhi, hin⟩ :=
        hc pos (List.mem_cons_self _ _) alpha beta h0 hab (by omega)
      have hge := foldl_min_le (fun pos => f (g.child pos)) rest (min v (f (g.child pos)))
      subst hpos
      rw [child_empty hi] at hr
      by_cases hcut : min beta r ≤ alpha
      · refine ⟨min m r, ?_, ⟨by omega, by omega⟩, ?_, ?_, ?_⟩
        · simp only [betaLoop, bind, GoM.bind, Result_empty hi, hr, ResetPos_place hg hi,
            ite_gt_eq_min, if_pos hcut]
          rfl
        · intro _
          omega
        · intro h
          rw [List.foldl_cons] at h
          by_cases h1 : beta ≤ f (g.child ((i.val : Int) + 1))
          · have := hhi h1; omega
          · by_cases h2 : alpha < f (g.child ((i.val : Int) + 1))
            · have := hin h2 (by omega); omega
            · omega
        · intro h _
          rw [List.foldl_cons] at h
          by_cases h1 : beta ≤ f (g.child ((i.val : Int) + 1))
          · have := hhi h1; omega
          · by_cases h2 : alpha < f (g.child ((i.val : Int) + 1))
            · have := hin h2 (by omega); omega
            · omega
      · have ih := betaLoop_run child f hg alpha beta0 h0 hb rest (min m r)
          (min v (f (g.child ((i.val : Int) + 1)))) (min beta r)
          (fun p hp => hl p (List.mem_cons_of_mem _ hp))
          (fun p hp => hc p (List.mem_cons_of_mem _ hp))
          (by omega) (by omega) (by omega)
          (by
            by_cases h1 : beta ≤ f (g.child ((i.val : Int) + 1))
            · have := hhi h1; omega
            · by_cases h2 : alpha < f (g.child ((i.val : Int) + 1))
              · have := hin h2 (by omega); omega
              · have := hlo (by omega); omega)
          (by omega)
        obtain ⟨r2, hr2, hspec⟩ := ih
        refine ⟨r2, ?_, ?_⟩
        · rw [← hr2]
          simp only [betaLoop, bind, GoM.bind, Result_empty hi, hr, ResetPos_place hg hi,
            ite_gt_eq_min, if_neg hcut]
        · rw [List.foldl_cons]
          exact hspec

theorem minimaxAlphaBeta_run : ∀ (depth : Nat) (mx : Bool) (g : Game) (alpha beta : Int),
    Cached g → -1000 ≤ alpha → alpha < beta → beta ≤ 1000 →
    ∃ r, minimaxAlphaBeta depth alpha beta mx g = .done r g
      ∧ WindowSpec alpha beta (gameValue depth mx g) r
  | 0, _, g, alpha, beta, hg, _, _, _ => by
      have h := hg.points_bounds
      refine ⟨g.Score, rfl, ⟨?_, ?_⟩, ?_, ?_, fun _ _ => rfl⟩ <;>
        simp only [gameValue, Game.Score] <;> omega
  | depth + 1, mx, g, alpha, beta, hg, h1, h2, h3 => by
      have h := hg.points_bounds
      have hc : ∀ b0, ∀ pos ∈ g.actions, ∀ a b, -1000 ≤ a → a < b → b ≤ 1000 →
          ∃ r, minimaxAlphaBeta depth a b b0 (g.child pos) = .done r (g.child pos)
            ∧ WindowSpec a b (gameValue depth b0 (g.child pos)) r :=
        fun b0 pos hp a b ha hab hb =>
          minimaxAlphaBeta_run depth b0 (g.child pos) a b
            (cached_child (emptyCells_actions g) hp) ha hab hb
      unfold minimaxAlphaBeta gameValue
      simp only [bind, bind_getGame]
      cases hover : g.GameOver
      · cases mx
        · simp only [Bool.false_eq_true, if_false, bind_Actions]
          exact betaLoop_run (fun a b => minimaxAlphaBeta depth a b true) _ hg alpha beta h1 h3
            _ 1000 1000 beta (emptyCells_actions g) (hc true) (by omega) (by omega)
            (by omega) (by omega) h2
        · simp only [Bool.false_eq_true, if_false, if_true, bind_Actions]
          exact alphaLoop_run (fun a b => minimaxAlphaBeta depth a b false) _ hg alpha beta h1 h3
            _ (-1000) (-1000) alpha (emptyCells_actions g) (hc false) (by omega) (by omega)
            (by omega) (by omega) h2
      · simp only [if_true]
        refine ⟨g.Score, rfl, ⟨?_, ?_⟩, ?_, ?_, fun _ _ => rfl⟩ <;>
          simp only [Game.Score] <;> omega

/-- With the full window the pruned search returns the value of the plain one. -/
theorem minimaxAlphaBeta_full (depth : Nat) (mx : Bool) {g : Game} (hg : Cached g) :
    minimaxAlphaBeta depth (-1000) 1000 mx g = .done (gameValue depth mx g) g := by
  obtain ⟨r, hr, ⟨hr1, hr2⟩, hlo, hhi, hin⟩ :=
    minimaxAlphaBeta_run depth mx g (-1000) 1000 hg (by omega) (by omega) (by omega)
  have hv := gameValue_bounds depth mx g hg
  have : r = gameValue depth mx g := by
    by_cases h1 : gameValue depth mx g ≤ -1000
    · have := hlo h1; omega
    · by_cases h2 : 1000 ≤ gameValue depth mx g
      · have := hhi h2; omega
      · exact hin (by omega) (by omega)
  rw [hr, this]

/-! ## `Evaluate` against the count of owned lines -/

theorem rowStep_zero (b : Board) (s : Int × Int) : rowStep b s 0 =
    (if b 0 = 1 ∧ b 1 = 1 ∧ b 2 = 1 then s.1 + 1 else s.1,
     if b 0 = -1 ∧ b 1 = -1 ∧ b 2 = -1 then s.2 + 1 else s.2) := rfl

theorem rowStep_one (b : Board) (s : Int × Int) : rowStep b s 1 =
    (if b 3 = 1 ∧ b 4 = 1 ∧ b 5 = 1 then s.1 + 1 else s.1,
     if b 3 = -1 ∧ b 4 = -1 ∧ b 5 = -1 then s.2 + 1 else s.2) := rfl

theorem rowStep_two (b : Board) (s : Int × Int) : rowStep b s 2 =
    (if b 6 = 1 ∧ b 7 = 1 ∧ b 8 = 1 then s.1 + 1 else s.1,
     if b 6 = -1 ∧ b 7 = -1 ∧ b 8 = -1 then s.2 + 1 else s.2) := rfl

theorem colStep_zero (b : Board) (s : Int × Int) : colStep b s 0 =
    (if b 0 = 1 ∧ b 3 = 1 ∧ b 6 = 1 then s.1 + 1 else s.1,
     if b 0 = -1 ∧ b 3 = -1 ∧ b 6 = -1 then s.2 + 1 else s.2) := rfl

theorem colStep_one (b : Board) (s : Int × Int) : colStep b s 1 =
    (if b 1 = 1 ∧ b 4 = 1 ∧ b 7 = 1 then s.1 + 1 else s.1,
     if b 1 = -1 ∧ b 4 = -1 ∧ b 7 = -1 then s.2 + 1 else s.2) := rfl

theorem colStep_two (b : Board) (s : Int × Int) : colStep b s 2 =
    (if b 2 = 1 ∧ b 5 = 1 ∧ b 8 = 1 then s.1 + 1 else s.1,
     if b 2 = -1 ∧ b 5 = -1 ∧ b 8 = -1 then s.2 + 1 else s.2) := rfl

theorem ite_succ (c : Prop) [Decidable c] (x : Int) :
    (if c then x + 1 else x) = x + (if c then 1 else 0) := by
  split <;> simp

theorem ownedLines_eq (b : Board) (v : Int) :
    (ownedLines b v : Int) =
      (if b 0 = v ∧ b 1 = v ∧ b 2 = v then 1 else 0)
      + (if b 3 = v ∧ b 4 = v ∧ b 5 = v then 1 else 0)
      + (if b 6 = v ∧ b 7 = v ∧ b 8 = v then 1 else 0)
      + (if b 0 = v ∧ b 3 = v ∧ b 6 = v then 1 else 0)
      + (if b 1 = v ∧ b 4 = v ∧ b 7 = v then 1 else 0)
      + (if b 2 = v ∧ b 5 = v ∧ b 8 = v then 1 else 0)
      + (if b 0 = v ∧ b 4 = v ∧ b 8 = v then 1 else 0)
      + (if b 2 = v ∧ b 4 = v ∧ b 6 = v then 1 else 0) := by
  unfold ownedLines winLines
  simp only [List.countP_cons, List.countP_nil, decide_eq_true_eq]
  push_cast
  ring

theorem tallies_eq (b : Board) :
    tallies b = ((ownedLines b 1 : Int), (ownedLines b (-1) : Int)) := by
  rw [ownedLines_eq, ownedLines_eq]
  unfold tallies diagStep
  simp only [List.foldl_cons, List.foldl_nil, rowStep_zero, rowStep_one, rowStep_two,
    colStep_zero, colStep_one, colStep_two, ite_succ]
  ext
  · simp only []
    ring
  · simp only []
    ring

theorem evaluation_eq (g : Game) :
    g.evaluation =
      (decide (g.nMoves = 9 ∨ 0 < ownedLines g.board 1 ∨ 0 < ownedLines g.board (-1)),
        if g.playerTurn then (ownedLines g.board 1 : Int)
        else -(ownedLines g.board (-1) : Int)) := by
  unfold Game.evaluation
  rw [tallies_eq]
  have e : ∀ n : Nat, decide ((n : Int) ≠ 0) = decide (0 < n) := by
    intro n
    rcases Nat.eq_zero_or_pos n with h | h
    · subst h; simp
    · have : n ≠ 0 := by omega
      simp [h, this]
  cases g.playerTurn <;> simp only [e, Bool.false_eq_true, if_false, if_true, Bool.decide_or]

/-! ## Counting the empty cells -/

theorem boardIndices_nodup : boardIndices.Nodup := by decide

theorem boardIndices_sorted : boardIndices.Pairwise (· < ·) := by decide

theorem countP_update_not_mem (b : Board) (i : Fin 9) (v : Int) :
    ∀ l : List (Fin 9), i ∉ l →
      l.countP (fun j => decide (Function.update b i v j = 0))
        = l.countP (fun j => decide (b j = 0))
  | [], _ => rfl
  | x :: l, h => by
      have hx : x ≠ i := fun e => h (e ▸ List.mem_cons_self _ _)
      have hl : i ∉ l := fun e => h (List.mem_cons_of_mem _ e)
      rw [List.countP_cons, List.countP_cons, countP_update_not_mem b i v l hl,
        Function.update_noteq hx]

theorem countP_update_mem (b : Board) (i : Fin 9) (v : Int) (hv : v ≠ 0) (hi : b i = 0) :
    ∀ l : List (Fin 9), l.Nodup → i ∈ l →
      l.countP (fun j => decide (Function.update b i v j = 0)) + 1
        = l.countP (fun j => decide (b j = 0))
  | [], _, h => absurd h (List.not_mem_nil _)
  | x :: l, hn, h => by
      rw [List.nodup_cons] at hn
      rw [List.countP_cons, List.countP_cons]
      by_cases hx : x = i
      · subst hx
        rw [countP_update_not_mem b x v l hn.1, Function.update_same]
        simp [hv, hi]
      · have hl : i ∈ l := by
          rcases List.mem_cons.mp h with e | e
          · exact absurd e.symm hx
          · exact e
        have ih := countP_update_mem b i v hv hi l hn.2 hl
        rw [Function.update_noteq hx]
        omega

theorem length_emptyPositions (b : Board) :
    (emptyPositions b).length = boardIndices.countP (fun j => decide (b j = 0)) := by
  unfold emptyPositions
  rw [List.length_map, List.countP_eq_length_filter]

theorem length_emptyPositions_update (b : Board) (i : Fin 9) (v : Int) (hv : v ≠ 0)
    (hi : b i = 0) :
    (emptyPositions (Function.update b i v)).length + 1 = (emptyPositions b).length := by
  rw [length_emptyPositions, length_emptyPositions]
  exact countP_update_mem b i v hv hi boardIndices boardIndices_nodup (mem_boardIndices i)

theorem counted_New : Counted New := by
  unfold Counted
  decide

theorem counted_place {g : Game} (hg : Counted g) {i : Fin 9} (hi : g.board i = 0) :
    Counted (g.place i) := by
  unfold Counted at *
  have hv : (if g.playerTurn then (1 : Int) else -1) ≠ 0 := by
    cases g.playerTurn <;> simp
  have h := length_emptyPositions_update g.board i _ hv hi
  simp only [Game.place]
  omega

theorem Reachable.counted {g : Game} (hg : Reachable g) : Counted g := by
  induction hg with
  | new => exact counted_New
  | step pos _ hr ih =>
      obtain ⟨h, hc, rfl⟩ := Result_done_iff.mp hr
      exact counted_place ih hc

theorem length_actions {g : Game} (hc : Counted g) (hover : g.isOver = false) :
    (g.actions.length : Int) + g.nMoves = 9 := by
  rw [actions_eq, hover]
  exact hc

theorem actions_ne_nil {g : Game} (hg : Cached g) (hc : Counted g) (hover : g.isOver = false) :
    g.actions ≠ [] := by
  have h1 := hg.1
  rw [hover, evaluation_eq] at h1
  have h9 : g.nMoves ≠ 9 := by
    intro h
    simp [h] at h1
  have hl := length_actions hc hover
  intro e
  rw [e] at hl
  simp at hl
  exact h9 hl

theorem emptyPositions_sorted (b : Board) : (emptyPositions b).Pairwise (· < ·) := by
  unfold emptyPositions
  rw [List.pairwise_map]
  refine (boardIndices_sorted.filter _).imp ?_
  intro i j h
  have : i.val < j.val := h
  omega

theorem actions_sorted (g : Game) : g.actions.Pairwise (· < ·) := by
  rw [actions_eq]
  split
  · exact List.Pairwise.nil
  · exact emptyPositions_sorted _

/-! ## No line for the player who did not move -/

theorem ownedLines_update_le (b : Board) (i : Fin 9) (v w : Int) (h : v ≠ w) (hi : b i ≠ w) :
    ownedLines (Function.update b i v) w ≤ ownedLines b w := by
  unfold ownedLines
  apply List.countP_mono_left
  intro l _
  simp only [decide_eq_true_eq]
  have key : ∀ j : Fin 9, Function.update b i v j = w → b j = w := by
    intro j hj
    by_cases e : j = i
    · subst e
      rw [Function.update_same] at hj
      exact absurd hj h
    · rwa [Function.update_noteq e] at hj
  rintro ⟨h1, h2, h3⟩
  exact ⟨key _ h1, key _ h2, key _ h3⟩

theorem no_lines_of_not_over {g : Game} (hg : Cached g) (hover : g.isOver = false) :
    ownedLines g.board 1 = 0 ∧ ownedLines g.board (-1) = 0 := by
  have h1 := hg.1
  rw [hover, evaluation_eq] at h1
  have h2 : ¬ (g.nMoves = 9 ∨ 0 < ownedLines g.board 1 ∨ 0 < ownedLines g.board (-1)) :=
    of_decide_eq_false h1.symm
  constructor <;> omega

theorem Playable.one_winner {g : Game} (hg : Playable g) :
    ownedLines g.board 1 = 0 ∨ ownedLines g.board (-1) = 0 := by
  cases hg with
  | new => left; decide
  | @step g0 _ pos h0 hp hr =>
      obtain ⟨h, hc, rfl⟩ := Result_done_iff.mp hr
      obtain ⟨ha, hb⟩ := no_lines_of_not_over h0.reachable.cached (mem_actions.mp hp).1
      simp only [Game.place]
      cases ht : g0.playerTurn
      · left
        have := ownedLines_update_le g0.board (cellOf pos h) (-1) 1 (by decide)
          (by rw [hc]; decide)
        simp only [Bool.false_eq_true, if_false]
        omega
      · right
        have := ownedLines_update_le g0.board (cellOf pos h) 1 (-1) (by decide)
          (by rw [hc]; decide)
        simp only [if_true]
        omega

/-! ## The candidate loop -/

theorem bestLoop_run (search : GoM Int) (f : Game → Int) {g : Game} (hg : Cached g) :
    ∀ (l : List Int) (bestScore bestMove : Int), EmptyCells g l →
      (∀ pos ∈ l, search (g.child pos) = .done (f (g.child pos)) (g.child pos)) →
      bestLoop search l bestScore bestMove g
        = .done (pickBest (fun pos => f (g.child pos)) l bestScore bestMove) g
  | [], _, _, _, _ => rfl
  | pos :: rest, bs, bm, hl, hc => by
      obtain ⟨i, hi, hpos⟩ := hl pos (List.mem_cons_self _ _)
      have h1 := hc pos (List.mem_cons_self _ _)
      have ih := fun bs bm => bestLoop_run search f hg rest bs bm
        (fun p hp => hl p (List.mem_cons_of_mem _ hp))
        (fun p hp => hc p (List.mem_cons_of_mem _ hp))
      subst hpos
      rw [child_empty hi] at h1
      unfold bestLoop pickBest
      simp only [bind]
      rw [bind_of_done (Result_empty hi), bind_of_done h1,
        bind_of_done (ResetPos_place hg hi), child_empty hi]
      split
      · exact ih _ _
      · exact ih _ _

theorem pickBest_spec (score : Int → Int) :
    ∀ (l : List Int) (bs bm : Int), l.Pairwise (· < ·) →
      (pickBest score l bs bm = bm ∧ ∀ m ∈ l, score m ≤ bs)
      ∨ (pickBest score l bs bm ∈ l ∧ bs < score (pickBest score l bs bm)
          ∧ ∀ m ∈ l, score m ≤ score (pickBest score l bs bm)
              ∧ (score m = score (pickBest score l bs bm) → pickBest score l bs bm ≤ m))
  | [], bs, bm, _ => Or.inl ⟨rfl, fun _ h => absurd h (List.not_mem_nil _)⟩
  | pos :: rest, bs, bm, hs => by
      rw [List.pairwise_cons] at hs
      obtain ⟨hlt, hrest⟩ := hs
      unfold pickBest
      by_cases hgt : score pos > bs
      · rw [if_pos hgt]
        right
        rcases pickBest_spec score rest (score pos) pos hrest with ⟨he, hall⟩ | ⟨hm, hb, hall⟩
        · rw [he]
          refine ⟨List.mem_cons_self _ _, hgt, ?_⟩
          intro m hmem
          rcases List.mem_cons.mp hmem with e | e
          · subst e
            exact ⟨le_refl _, fun _ => le_refl _⟩
          · exact ⟨hall m e, fun _ => le_of_lt (hlt m e)⟩
        · refine ⟨List.mem_cons_of_mem _ hm, by omega, ?_⟩
          intro m hmem
          rcases List.mem_cons.mp hmem with e | e
          · subst e
            exact ⟨by omega, fun h => by omega⟩
          · exact hall m e
      · rw [if_neg hgt]
        rcases pickBest_spec score rest bs bm hrest with ⟨he, hall⟩ | ⟨hm, hb, hall⟩
        · left
          refine ⟨he, ?_⟩
          intro m hmem
          rcases List.mem_cons.mp hmem with e | e
          · subst e
            omega
          · exact hall m e
        · right
          refine ⟨List.mem_cons_of_mem _ hm, hb, ?_⟩
          intro m hmem
          rcases List.mem_cons.mp hmem with e | e
          · subst e
            exact ⟨by omega, fun h => by omega⟩
          · exact hall m e

/-- The choice of the loop started as the engine starts it, on an ascending
list whose scores are not below the sentinel: a maximiser of the score, and the
smallest one. -/
theorem pickBest_first_max (score : Int → Int) (a : Int) (rest : List Int)
    (hs : (a :: rest).Pairwise (· < ·)) (hlo : ∀ m ∈ a :: rest, -1000 ≤ score m) :
    pickBest score (a :: rest) (-1000) a ∈ a :: rest
      ∧ ∀ m ∈ a :: rest, score m ≤ score (pickBest score (a :: rest) (-1000) a)
          ∧ (score m = score (pickBest score (a :: rest) (-1000) a)
              → pickBest score (a :: rest) (-1000) a ≤ m) := by
  rcases pickBest_spec score (a :: rest) (-1000) a hs with ⟨he, hall⟩ | ⟨hm, _, hall⟩
  · rw [he]
    refine ⟨List.mem_cons_self _ _, ?_⟩
    intro m hmem
    have h1 := hall m hmem
    have h2 := hall a (List.mem_cons_self _ _)
    have h3 := hlo m hmem
    have h4 := hlo a (List.mem_cons_self _ _)
    refine ⟨by omega, fun _ => ?_⟩
    rcases List.mem_cons.mp hmem with e | e
    · rw [e]
    · exact le_of_lt ((List.pairwise_cons.mp hs).1 m e)
  · exact ⟨hm, hall⟩

theorem IntelligentMove_run {g : Game} (hg : Cached g) (hne : g.actions ≠ []) :
    IntelligentMove g = .done () (g.child g.bestMove)
      ∧ IntelligentMoveAlphaBeta g = .done () (g.child g.bestMove)
      ∧ Result g.bestMove g = .done () (g.child g.bestMove)
      ∧ g.bestMove ∈ g.actions := by
  obtain ⟨a, rest, hl⟩ := List.exists_cons_of_ne_nil hne
  have hcached : ∀ pos ∈ g.actions, Cached (g.child pos) := fun pos hp =>
    cached_child (emptyCells_actions g) hp
  have hmem : g.bestMove ∈ g.actions := by
    unfold Game.bestMove
    rw [hl]
    refine (pickBest_first_max _ a rest (hl ▸ actions_sorted g) ?_).1
    intro m hm
    exact (gameValue_bounds _ _ _ (hcached m (hl ▸ hm))).1
  obtain ⟨i, hi, hpos⟩ := emptyCells_actions g _ hmem
  have hres : Result g.bestMove g = .done () (g.child g.bestMove) := by
    rw [hpos, Result_empty hi, child_empty hi]
  have hfirst : firstAction g.actions g = .done (g.actions.headD 0) g := by
    rw [hl]
    rfl
  refine ⟨?_, ?_, hres, hmem⟩
  · unfold IntelligentMove
    simp only [bind]
    rw [bind_Actions, bind_of_done hfirst,
      bind_of_done (bestLoop_run _ (gameValue (g.actions.length - 1) false) hg g.actions _ _
        (emptyCells_actions g) (fun pos hp => minimax_run _ _ _ (hcached pos hp)))]
    exact hres
  · unfold IntelligentMoveAlphaBeta
    simp only [bind]
    rw [bind_Actions, bind_of_done hfirst,
      bind_of_done (bestLoop_run _ (gameValue (g.actions.length - 1) false) hg g.actions _ _
        (emptyCells_actions g) (fun pos hp => minimaxAlphaBeta_full _ _ (hcached pos hp)))]
    exact hres

/-! ## Compact boards against the embedded searches -/

theorem forceNat_eq {α : Type} (n : Nat) (k : Nat → α) : forceNat n k = k n := by
  cases n <;> rfl

theorem forceInt_eq {α : Type} (z : Int) (k : Int → α) : forceInt z k = k z := by
  cases z <;> simp only [forceInt, forceNat_eq]

theorem Bits.force_eq {α : Type} (s : Bits) (k : Bits → α) : s.force k = k s := by
  obtain ⟨x, o, n, t⟩ := s
  cases t <;> simp only [Bits.force, forceNat_eq]

theorem testBit_mask (a b c i : Nat) :
    Nat.testBit (2 ^ a ||| 2 ^ b ||| 2 ^ c) i = (decide (a = i) || decide (b = i) || decide (c = i)) := by
  simp only [Nat.testBit_or, Nat.testBit_two_pow]

theorem hit_mask (m a b c : Nat) :
    hit m (2 ^ a ||| 2 ^ b ||| 2 ^ c)
      = if Nat.testBit m a = true ∧ Nat.testBit m b = true ∧ Nat.testBit m c = true then 1 else 0 := by
  unfold hit
  have key : (Nat.land m (2 ^ a ||| 2 ^ b ||| 2 ^ c) = 2 ^ a ||| 2 ^ b ||| 2 ^ c)
      ↔ (Nat.testBit m a = true ∧ Nat.testBit m b = true ∧ Nat.testBit m c = true) := by
    constructor
    · intro h
      have h2 : ∀ i, Nat.testBit (m &&& (2 ^ a ||| 2 ^ b ||| 2 ^ c)) i
          = Nat.testBit (2 ^ a ||| 2 ^ b ||| 2 ^ c) i := fun i => by
        show Nat.testBit (Nat.land m _) i = _
        rw [h]
      simp only [Nat.testBit_and, testBit_mask] at h2
      refine ⟨?_, ?_, ?_⟩
      · simpa using h2 a
      · simpa using h2 b
      · simpa using h2 c
    · rintro ⟨ha, hb, hc⟩
      show m &&& _ = _
      apply Nat.eq_of_testBit_eq
      intro i
      simp only [Nat.testBit_and, testBit_mask]
      by_cases h1 : a = i
      · subst h1; simp [ha]
      · by_cases h2 : b = i
        · subst h2; simp [hb]
        · by_cases h3 : c = i
          · subst h3; simp [hc]
          · simp [h1, h2, h3]
  by_cases h : Nat.testBit m a = true ∧ Nat.testBit m b = true ∧ Nat.testBit m c = true
  · have : Nat.beq (Nat.land m (2 ^ a ||| 2 ^ b ||| 2 ^ c)) (2 ^ a ||| 2 ^ b ||| 2 ^ c) = true := by
      rw [key.mpr h]
      exact Nat.beq_refl _
    rw [if_pos h, this]
    rfl
  · rw [if_neg h]
    have : Nat.beq (Nat.land m (2 ^ a ||| 2 ^ b ||| 2 ^ c)) (2 ^ a ||| 2 ^ b ||| 2 ^ c) = false := by
      cases hb : Nat.beq (Nat.land m (2 ^ a ||| 2 ^ b ||| 2 ^ c)) (2 ^ a ||| 2 ^ b ||| 2 ^ c)
      · rfl
      · exact absurd (key.mp (Nat.eq_of_beq_eq_true hb)) h
    rw [this]
    rfl

theorem lineCount_eq (m : Nat) :
    lineCount m =
      (if Nat.testBit m 0 = true ∧ Nat.testBit m 1 = true ∧ Nat.testBit m 2 = true then 1 else 0)
      + (if Nat.testBit m 3 = true ∧ Nat.testBit m 4 = true ∧ Nat.testBit m 5 = true then 1 else 0)
      + (if Nat.testBit m 6 = true ∧ Nat.testBit m 7 = true ∧ Nat.testBit m 8 = true then 1 else 0)
      + (if Nat.testBit m 0 = true ∧ Nat.testBit m 3 = true ∧ Nat.testBit m 6 = true then 1 else 0)
      + (if Nat.testBit m 1 = true ∧ Nat.testBit m 4 = true ∧ Nat.testBit m 7 = true then 1 else 0)
      + (if Nat.testBit m 2 = true ∧ Nat.testBit m 5 = true ∧ Nat.testBit m 8 = true then 1 else 0)
      + (if Nat.testBit m 0 = true ∧ Nat.testBit m 4 = true ∧ Nat.testBit m 8 = true then 1 else 0)
      + (if Nat.testBit m 2 = true ∧ Nat.testBit m 4 = true ∧ Nat.testBit m 6 = true then 1 else 0) := by
  unfold lineCount
  rw [← hit_mask m 0 1 2, ← hit_mask m 3 4 5, ← hit_mask m 6 7 8, ← hit_mask m 0 3 6,
    ← hit_mask m 1 4 7, ← hit_mask m 2 5 8, ← hit_mask m 0 4 8, ← hit_mask m 2 4 6]
  rfl


theorem Bits.board_eq_one (s : Bits) (i : Fin 9) :
    s.game.board i = 1 ↔ Nat.testBit s.x i.val = true := by
  simp only [Bits.game]
  cases Nat.testBit s.x i.val <;> cases Nat.testBit s.o i.val <;> simp

theorem Bits.board_eq_neg_one {s : Bits} (hs : s.Valid) (i : Fin 9) :
    s.game.board i = -1 ↔ Nat.testBit s.o i.val = true := by
  have h := hs i.val
  simp only [Bits.game]
  cases hx : Nat.testBit s.x i.val <;> cases ho : Nat.testBit s.o i.val <;> simp_all

theorem Bits.board_eq_zero (s : Bits) (i : Fin 9) :
    s.game.board i = 0 ↔ s.free i = true := by
  simp only [Bits.game, Bits.free]
  have : Nat.testBit (Nat.lor s.x s.o) i.val
      = (Nat.testBit s.x i.val || Nat.testBit s.o i.val) := Nat.testBit_or _ _ _
  rw [this]
  cases Nat.testBit s.x i.val <;> cases Nat.testBit s.o i.val <;> simp

theorem ownedLines_nat (b : Board) (v : Int) :
    ownedLines b v =
      (if b 0 = v ∧ b 1 = v ∧ b 2 = v then 1 else 0)
      + (if b 3 = v ∧ b 4 = v ∧ b 5 = v then 1 else 0)
      + (if b 6 = v ∧ b 7 = v ∧ b 8 = v then 1 else 0)
      + (if b 0 = v ∧ b 3 = v ∧ b 6 = v then 1 else 0)
      + (if b 1 = v ∧ b 4 = v ∧ b 7 = v then 1 else 0)
      + (if b 2 = v ∧ b 5 = v ∧ b 8 = v then 1 else 0)
      + (if b 0 = v ∧ b 4 = v ∧ b 8 = v then 1 else 0)
      + (if b 2 = v ∧ b 4 = v ∧ b 6 = v then 1 else 0) := by
  unfold ownedLines winLines
  simp only [List.countP_cons, List.countP_nil, decide_eq_true_eq]
  ring

theorem Bits.ownedLines_one (s : Bits) : ownedLines s.game.board 1 = lineCount s.x := by
  rw [ownedLines_nat, lineCount_eq]
  simp only [Bits.board_eq_one]
  rfl

theorem Bits.ownedLines_neg_one {s : Bits} (hs : s.Valid) :
    ownedLines s.game.board (-1) = lineCount s.o := by
  rw [ownedLines_nat, lineCount_eq]
  simp only [Bits.board_eq_neg_one hs]
  rfl

theorem nat_beq_iff (a b : Nat) : Nat.beq a b = true ↔ a = b :=
  ⟨Nat.eq_of_beq_eq_true, fun h => h ▸ Nat.beq_refl a⟩

theorem Bits.over_eq (s : Bits) :
    s.over = decide ((s.n : Int) = 9 ∨ 0 < lineCount s.x ∨ 0 < lineCount s.o) := by
  unfold Bits.over
  rw [Bool.eq_iff_iff]
  simp only [Bool.or_eq_true, Bool.not_eq_true', decide_eq_true_eq, ← Bool.not_eq_true,
    nat_beq_iff]
  omega

theorem Bits.points_eq (s : Bits) :
    s.points = if s.turn then -(lineCount s.o : Int) else (lineCount s.x : Int) := by
  unfold Bits.points
  cases s.turn
  · rfl
  · simp only [cond_true, if_true]
    exact Int.negOfNat_eq

theorem Bits.game_cached {s : Bits} (hs : s.Valid) : Cached s.game := by
  unfold Cached
  rw [evaluation_eq]
  simp only [Bits.ownedLines_one, Bits.ownedLines_neg_one hs]
  constructor
  · exact Bits.over_eq s
  · show s.points = _
    rw [Bits.points_eq]
    show _ = if (!s.turn) = true then _ else _
    cases s.turn <;> rfl

theorem Bits.valid_of_land {s : Bits} (h : Nat.land s.x s.o = 0) : s.Valid := by
  intro i hi
  have : Nat.testBit (s.x &&& s.o) i = true := by
    rw [Nat.testBit_and, hi.1, hi.2]
    rfl
  have h0 : s.x &&& s.o = 0 := h
  rw [h0] at this
  simp at this

theorem Bits.free_iff (s : Bits) (i : Fin 9) :
    s.free i = true ↔ Nat.testBit s.x i.val = false ∧ Nat.testBit s.o i.val = false := by
  unfold Bits.free
  have : Nat.testBit (Nat.lor s.x s.o) i.val
      = (Nat.testBit s.x i.val || Nat.testBit s.o i.val) := Nat.testBit_or _ _ _
  rw [this]
  cases Nat.testBit s.x i.val <;> cases Nat.testBit s.o i.val <;> simp

theorem testBit_lor_pow (m i j : Nat) :
    Nat.testBit (Nat.lor m (2 ^ i)) j = (Nat.testBit m j || decide (i = j)) := by
  have : Nat.testBit (m ||| 2 ^ i) j = _ := Nat.testBit_or m (2 ^ i) j
  rw [Nat.testBit_two_pow] at this
  exact this

theorem Bits.valid_place {s : Bits} (hs : s.Valid) {i : Fin 9} (hf : s.free i = true) :
    (s.place i).Valid := by
  obtain ⟨hx, ho⟩ := (Bits.free_iff s i).mp hf
  intro j hj
  have h := hs j
  unfold Bits.place at hj
  cases ht : s.turn
  · rw [ht] at hj
    simp only [cond_false, testBit_lor_pow, Bool.or_eq_true, decide_eq_true_eq] at hj
    rcases hj.2 with h2 | h2
    · exact h ⟨hj.1, h2⟩
    · subst h2
      rw [hx] at hj
      exact absurd hj.1 (by simp)
  · rw [ht] at hj
    simp only [cond_true, testBit_lor_pow, Bool.or_eq_true, decide_eq_true_eq] at hj
    rcases hj.1 with h2 | h2
    · exact h ⟨h2, hj.2⟩
    · subst h2
      rw [ho] at hj
      exact absurd hj.2 (by simp)

theorem Bits.board_place (s : Bits) {i : Fin 9} (hf : s.free i = true) :
    (s.place i).game.board
      = Function.update s.game.board i (if s.turn then 1 else -1) := by
  obtain ⟨hx, ho⟩ := (Bits.free_iff s i).mp hf
  funext j
  by_cases hji : j = i
  · subst hji
    rw [Function.update_same]
    cases ht : s.turn
    · simp [Bits.game, Bits.place, ht, testBit_lor_pow, hx]
    · simp [Bits.game, Bits.place, ht, testBit_lor_pow]
  · rw [Function.update_noteq hji]
    have hne : ¬ (i.val = j.val) := fun e => hji (Fin.ext e.symm)
    cases ht : s.turn
    · simp [Bits.game, Bits.place, ht, testBit_lor_pow, hne]
    · simp [Bits.game, Bits.place, ht, testBit_lor_pow, hne]

theorem Bits.game_place {s : Bits} (hs : s.Valid) {i : Fin 9} (hf : s.free i = true) :
    s.game.place i = (s.place i).game := by
  have hc := Bits.game_cached (Bits.valid_place hs hf)
  have hb := Bits.board_place s hf
  have ht : (s.place i).turn = !s.turn := by
    unfold Bits.place
    cases s.turn <;> rfl
  have hn : (s.place i).n = s.n + 1 := by
    unfold Bits.place
    cases s.turn <;> rfl
  have he : (Game.evaluation { (s.place i).game with playerTurn := !(s.place i).game.playerTurn })
      = (Game.evaluation { s.game with
          board := Function.update s.game.board i (if s.game.playerTurn then 1 else -1)
          nMoves := s.game.nMoves + 1 }) := by
    apply evaluation_congr
    · exact hb
    · show ((s.place i).n : Int) = (s.n : Int) + 1
      rw [hn]
      push_cast
      rfl
    · show (!(s.place i).turn) = s.turn
      rw [ht]
      simp
  rw [Game.eq_iff]
  refine ⟨hb.symm, ?_, ?_, ?_, ?_⟩
  · show (!s.turn) = (s.place i).turn
    rw [ht]
  · show (s.n : Int) + 1 = ((s.place i).n : Int)
    rw [hn]
    push_cast
    rfl
  · rw [hc.1, he]
    rfl
  · rw [hc.2, he]
    rfl


theorem Bits.positions_cons_free (s : Bits) {i : Fin 9} (rest : List (Fin 9))
    (hf : s.free i = true) :
    s.positions (i :: rest) = ((i.val : Int) + 1) :: s.positions rest := by
  simp only [Bits.positions, List.filter_cons, hf, if_true, List.map_cons]

theorem Bits.positions_cons_taken (s : Bits) {i : Fin 9} (rest : List (Fin 9))
    (hf : ¬ s.free i = true) :
    s.positions (i :: rest) = s.positions rest := by
  have hf2 : s.free i = false := by simpa using hf
  simp only [Bits.positions, List.filter_cons, hf2, Bool.false_eq_true, if_false]

theorem Bits.game_actions (s : Bits) :
    s.game.actions = if s.over then [] else s.positions boardIndices := by
  rw [TicTacToe.actions_eq]
  have h : ∀ i : Fin 9, decide (s.game.board i = 0) = s.free i := fun i => by
    rw [Bool.eq_iff_iff, decide_eq_true_eq]
    exact Bits.board_eq_zero s i
  have hp : emptyPositions s.game.board = s.positions boardIndices := by
    unfold emptyPositions Bits.positions
    simp only [h]
  rw [hp]
  rfl

theorem Bits.Result_free {s : Bits} (hs : s.Valid) {i : Fin 9} (hf : s.free i = true) :
    Result ((i.val : Int) + 1) s.game = .done () (s.place i).game := by
  rw [Result_empty ((Bits.board_eq_zero s i).mpr hf), Bits.game_place hs hf]

theorem Bits.child_free {s : Bits} (hs : s.Valid) {i : Fin 9} (hf : s.free i = true) :
    s.game.child ((i.val : Int) + 1) = (s.place i).game := by
  rw [child_empty ((Bits.board_eq_zero s i).mpr hf), Bits.game_place hs hf]

theorem Bits.ResetPos_free {s : Bits} (hs : s.Valid) {i : Fin 9} (hf : s.free i = true) :
    ResetPos ((i.val : Int) + 1) (s.place i).game = .done () s.game := by
  rw [← Bits.game_place hs hf]
  exact ResetPos_place (Bits.game_cached hs) ((Bits.board_eq_zero s i).mpr hf)

theorem fastAlphaLoop_run (child : Int → Int → GoM Int) (child2 : Int → Int → Bits → Int)
    {s : Bits} (hs : s.Valid) (beta : Int) :
    ∀ (cs : List (Fin 9)) (m alpha : Int),
      (∀ i ∈ cs, s.free i = true → ∀ a b,
        child a b (s.place i).game = .done (child2 a b (s.place i)) (s.place i).game) →
      alphaLoop child beta (s.positions cs) m alpha s.game
        = .done (fastAlphaLoop child2 s beta cs m alpha) s.game
  | [], _, _, _ => rfl
  | i :: rest, m, alpha, hc => by
      have ih := fun m alpha => fastAlphaLoop_run child child2 hs beta rest m alpha
        (fun j hj => hc j (List.mem_cons_of_mem _ hj))
      by_cases hf : s.free i = true
      · rw [Bits.positions_cons_free s rest hf]
        unfold alphaLoop fastAlphaLoop
        simp only [bind]
        rw [bind_of_done (Bits.Result_free hs hf),
          bind_of_done (hc i (List.mem_cons_self _ _) hf alpha beta),
          bind_of_done (Bits.ResetPos_free hs hf)]
        simp only [hf, cond_true, Bits.force_eq, forceInt_eq, ite_lt_eq_max]
        split
        · rfl
        · exact ih _ _
      · rw [Bits.positions_cons_taken s rest hf]
        unfold fastAlphaLoop
        simp only [hf, cond_false]
        exact ih _ _

theorem fastBetaLoop_run (child : Int → Int → GoM Int) (child2 : Int → Int → Bits → Int)
    {s : Bits} (hs : s.Valid) (alpha : Int) :
    ∀ (cs : List (Fin 9)) (m beta : Int),
      (∀ i ∈ cs, s.free i = true → ∀ a b,
        child a b (s.place i).game = .done (child2 a b (s.place i)) (s.place i).game) →
      betaLoop child alpha (s.positions cs) m beta s.game
        = .done (fastBetaLoop child2 s alpha cs m beta) s.game
  | [], _, _, _ => rfl
  | i :: rest, m, beta, hc => by
      have ih := fun m beta => fastBetaLoop_run child child2 hs alpha rest m beta
        (fun j hj => hc j (List.mem_cons_of_mem _ hj))
      by_cases hf : s.free i = true
      · rw [Bits.positions_cons_free s rest hf]
        unfold betaLoop fastBetaLoop
        simp only [bind]
        rw [bind_of_done (Bits.Result_free hs hf),
          bind_of_done (hc i (List.mem_cons_self _ _) hf alpha beta),
          bind_of_done (Bits.ResetPos_free hs hf)]
        simp only [hf, cond_true, Bits.force_eq, forceInt_eq, ite_gt_eq_min]
        split
        · rfl
        · exact ih _ _
      · rw [Bits.positions_cons_taken s rest hf]
        unfold fastBetaLoop
        simp only [hf, cond_false]
        exact ih _ _

theorem fastAlphaBeta_run : ∀ (depth : Nat) (alpha beta : Int) (mx : Bool) (s : Bits),
    s.Valid →
    minimaxAlphaBeta depth alpha beta mx s.game
      = .done (fastAlphaBeta depth alpha beta mx s) s.game
  | 0, _, _, _, _, _ => rfl
  | depth + 1, alpha, beta, mx, s, hs => by
      have hc : ∀ b0, ∀ i ∈ boardIndices, s.free i = true → ∀ a b,
          minimaxAlphaBeta depth a b b0 (s.place i).game
            = .done (fastAlphaBeta depth a b b0 (s.place i)) (s.place i).game :=
        fun b0 i _ hf a b => fastAlphaBeta_run depth a b b0 (s.place i) (Bits.valid_place hs hf)
      unfold minimaxAlphaBeta fastAlphaBeta
      simp only [bind, bind_getGame]
      have hover : s.game.GameOver = s.over := rfl
      rw [hover]
      cases ho : s.over
      · simp only [Bool.false_eq_true, if_false, cond_false]
        cases mx
        · simp only [Bool.false_eq_true, if_false, cond_false, bind_Actions, Bits.game_actions, ho]
          exact fastBetaLoop_run _ _ hs alpha boardIndices 1000 beta (hc true)
        · simp only [if_true, cond_true, bind_Actions, Bits.game_actions, ho, Bool.false_eq_true,
            if_false]
          exact fastAlphaLoop_run _ _ hs beta boardIndices (-1000) alpha (hc false)
      · simp only [if_true, cond_true]
        rfl

theorem Bits.gameValue_eq (depth : Nat) (mx : Bool) {s : Bits} (hs : s.Valid) :
    gameValue depth mx s.game = fastAlphaBeta depth (-1000) 1000 mx s := by
  have h1 := minimaxAlphaBeta_full depth mx (Bits.game_cached hs)
  rw [fastAlphaBeta_run depth (-1000) 1000 mx s hs] at h1
  injection h1 with h _
  exact h.symm

theorem fastPick_eq (score : Int → Int) (score2 : Fin 9 → Int) (s : Bits) :
    ∀ (cs : List (Fin 9)) (bs bm : Int),
      (∀ i ∈ cs, s.free i = true → score ((i.val : Int) + 1) = score2 i) →
      pickBest score (s.positions cs) bs bm = fastPick score2 s cs bs bm
  | [], _, _, _ => rfl
  | i :: rest, bs, bm, hc => by
      have ih := fun bs bm => fastPick_eq score score2 s rest bs bm
        (fun j hj => hc j (List.mem_cons_of_mem _ hj))
      by_cases hf : s.free i = true
      · rw [Bits.positions_cons_free s rest hf]
        unfold pickBest fastPick
        simp only [hf, cond_true, forceInt_eq, hc i (List.mem_cons_self _ _) hf]
        split
        · exact ih _ _
        · exact ih _ _
      · rw [Bits.positions_cons_taken s rest hf]
        unfold fastPick
        simp only [hf, cond_false]
        exact ih _ _

theorem Bits.bestMove_eq {s : Bits} (hs : s.Valid) (ho : s.over = false) :
    s.game.bestMove = s.bestMove := by
  unfold Game.bestMove Bits.bestMove
  rw [Bits.game_actions, ho]
  simp only [Bool.false_eq_true, if_false]
  apply fastPick_eq
  intro i _ hf
  rw [Bits.child_free hs hf, Bits.gameValue_eq _ _ (Bits.valid_place hs hf), Bits.force_eq]

/-- One move of either engine on a compact state. -/
theorem Bits.intelligentMove (s : Bits) (hs : s.Valid) (ho : s.over = false)
    (hne : s.positions boardIndices ≠ []) (i : Fin 9) (hb : s.bestMove = (i.val : Int) + 1) :
    IntelligentMove s.game = .done () (s.place i).game
      ∧ IntelligentMoveAlphaBeta s.game = .done () (s.place i).game := by
  have hact : s.game.actions = s.positions boardIndices := by
    rw [Bits.game_actions, ho]
    rfl
  obtain ⟨h1, h2, _, h4⟩ := IntelligentMove_run (Bits.game_cached hs) (by rw [hact]; exact hne)
  rw [Bits.bestMove_eq hs ho, hb] at h1 h2 h4
  obtain ⟨j, hj, hpos⟩ := emptyCells_actions _ _ h4
  have hij : i = j := Fin.ext (by omega)
  subst hij
  have hf : s.free i = true := (Bits.board_eq_zero s i).mp hj
  rw [Bits.child_free hs hf] at h1 h2
  exact ⟨h1, h2⟩


theorem selfPlay_succ (move : GoM Unit) (fuel : Nat) (g : Game) :
    selfPlay move (fuel + 1) g
      = if g.GameOver then .done () g else GoM.bind move (fun _ => selfPlay move fuel) g := by
  show GoM.bind getGame
    (fun g => if g.GameOver then pure () else GoM.bind move fun _ => selfPlay move fuel) g = _
  rw [bind_getGame]
  cases g.GameOver <;> rfl

theorem selfPlay_step (move : GoM Unit) (fuel : Nat) {g g1 : Game} (h : g.GameOver = false)
    (hm : move g = .done () g1) : selfPlay move (fuel + 1) g = selfPlay move fuel g1 := by
  rw [selfPlay_succ, h, bind_of_done hm]
  rfl

theorem selfPlay_over (move : GoM Unit) (fuel : Nat) {g : Game} (h : g.GameOver = true) :
    selfPlay move fuel g = .done () g := by
  cases fuel with
  | zero => rfl
  | succ n => rw [selfPlay_succ, h]; rfl

set_option maxRecDepth 1000000 in
theorem engine_move_1 :
    IntelligentMove (Bits.game ⟨0, 0, 0, false⟩) = .done () (Bits.game ⟨0, 16, 1, true⟩)
      ∧ IntelligentMoveAlphaBeta (Bits.game ⟨0, 0, 0, false⟩)
          = .done () (Bits.game ⟨0, 16, 1, true⟩) :=
  Bits.intelligentMove ⟨0, 0, 0, false⟩ (Bits.valid_of_land (by decide)) (by decide)
    (by decide) 4 (by decide!)

set_option maxRecDepth 1000000 in
theorem engine_move_2 :
    IntelligentMove (Bits.game ⟨0, 16, 1, true⟩) = .done () (Bits.game ⟨1, 16, 2, false⟩)
      ∧ IntelligentMoveAlphaBeta (Bits.game ⟨0, 16, 1, true⟩)
          = .done () (Bits.game ⟨1, 16, 2, false⟩) :=
  Bits.intelligentMove ⟨0, 16, 1, true⟩ (Bits.valid_of_land (by decide)) (by decide)
    (by decide) 0 (by decide!)

set_option maxRecDepth 1000000 in
theorem engine_move_3 :
    IntelligentMove (Bits.game ⟨1, 16, 2, false⟩) = .done () (Bits.game ⟨1, 272, 3, true⟩)
      ∧ IntelligentMoveAlphaBeta (Bits.game ⟨1, 16, 2, false⟩)
          = .done () (Bits.game ⟨1, 272, 3, true⟩) :=
  Bits.intelligentMove ⟨1, 16, 2, false⟩ (Bits.valid_of_land (by decide)) (by decide)
    (by decide) 8 (by decide!)

set_option maxRecDepth 1000000 in
theorem engine_move_4 :
    IntelligentMove (Bits.game ⟨1, 272, 3, true⟩) = .done () (Bits.game ⟨5, 272, 4, false⟩)
      ∧ IntelligentMoveAlphaBeta (Bits.game ⟨1, 272, 3, true⟩)
          = .done () (Bits.game ⟨5, 272, 4, false⟩) :=
  Bits.intelligentMove ⟨1, 272, 3, true⟩ (Bits.valid_of_land (by decide)) (by decide)
    (by decide) 2 (by decide!)

set_option maxRecDepth 1000000 in
theorem engine_move_5 :
    IntelligentMove (Bits.game ⟨5, 272, 4, false⟩) = .done () (Bits.game ⟨5, 304, 5, true⟩)
      ∧ IntelligentMoveAlphaBeta (Bits.game ⟨5, 272, 4, false⟩)
          = .done () (Bits.game ⟨5, 304, 5, true⟩) :=
  Bits.intelligentMove ⟨5, 272, 4, false⟩ (Bits.valid_of_land (by decide)) (by decide)
    (by decide) 5 (by decide!)

set_option maxRecDepth 1000000 in
theorem engine_move_6 :
    IntelligentMove (Bits.game ⟨5, 304, 5, true⟩) = .done () (Bits.game ⟨7, 304, 6, false⟩)
      ∧ IntelligentMoveAlphaBeta (Bits.game ⟨5, 304, 5, true⟩)
          = .done () (Bits.game ⟨7, 304, 6, false⟩) :=
  Bits.intelligentMove ⟨5, 304, 5, true⟩ (Bits.valid_of_land (by decide)) (by decide)
    (by decide) 1 (by decide!)

theorem game_start : Bits.game ⟨0, 0, 0, false⟩ = New := by decide

theorem game_end : Bits.game ⟨7, 304, 6, false⟩ = selfPlayEnd := by decide

theorem selfPlay_run :
    selfPlay IntelligentMove 9 New = .done () selfPlayEnd
      ∧ selfPlay IntelligentMoveAlphaBeta 9 New = .done () selfPlayEnd := by
  rw [← game_start, ← game_end]
  constructor
  · rw [selfPlay_step _ _ (by decide) engine_move_1.1, selfPlay_step _ _ (by decide) engine_move_2.1,
      selfPlay_step _ _ (by decide) engine_move_3.1, selfPlay_step _ _ (by decide) engine_move_4.1,
      selfPlay_step _ _ (by decide) engine_move_5.1, selfPlay_step _ _ (by decide) engine_move_6.1]
    exact selfPlay_over _ _ (by decide)
  · rw [selfPlay_step _ _ (by decide) engine_move_1.2, selfPlay_step _ _ (by decide) engine_move_2.2,
      selfPlay_step _ _ (by decide) engine_move_3.2, selfPlay_step _ _ (by decide) engine_move_4.2,
      selfPlay_step _ _ (by decide) engine_move_5.2, selfPlay_step _ _ (by decide) engine_move_6.2]
    exact selfPlay_over _ _ (by decide)

/-! ## Legal play on concrete games -/

theorem Playable.child {g : Game} (hg : Playable g) (pos : Int) (hp : pos ∈ g.actions) :
    Playable (g.child pos) := by
  obtain ⟨i, hi, rfl⟩ := emptyCells_actions g pos hp
  exact Playable.step _ hg hp (by rw [Result_empty hi, child_empty hi])

theorem playable_topRowGame : Playable topRowGame :=
  ((((Playable.new.child 1 (by decide)).child 4 (by decide)).child 2 (by decide)).child 5 (by decide)).child 3 (by decide)

/-! ## `RandomMove` -/

theorem isOver_of_actions_ne_nil {g : Game} (h : g.actions ≠ []) : g.isOver = false := by
  cases ho : g.isOver
  · rfl
  · exfalso
    apply h
    rw [actions_eq, ho]
    rfl

theorem RandomMove_over (draw : Nat) {g : Game} (h : g.isOver = true) :
    RandomMove draw g = .done () g := by
  unfold RandomMove
  simp only [bind]
  rw [bind_getGame, h]
  rfl

theorem RandomMove_no_choice (draw : Nat) {g : Game} (ho : g.isOver = false)
    (h : g.actions = []) : RandomMove draw g = .fault .invalidArgument g := by
  have hr : randIntn draw ((g.actions.length : Nat) : Int) g = .fault .invalidArgument g := by
    unfold randIntn
    rw [h]
    rfl
  unfold RandomMove
  simp only [bind]
  rw [bind_getGame, ho]
  simp only [Bool.false_eq_true, if_false]
  rw [bind_Actions, bind_of_fault hr]

theorem RandomMove_choice (draw : Nat) {g : Game} (h : g.actions ≠ []) :
    ∃ pos ∈ g.actions, RandomMove draw g = .done () (g.child pos)
      ∧ Result pos g = .done () (g.child pos) := by
  have ho := isOver_of_actions_ne_nil h
  have hlen : 0 < g.actions.length := List.length_pos.mpr h
  have hpos : 0 < ((g.actions.length : Nat) : Int) := by omega
  have hrange : 0 ≤ (draw : Int) % (g.actions.length : Int)
      ∧ (draw : Int) % (g.actions.length : Int) < (g.actions.length : Int) :=
    ⟨Int.emod_nonneg _ (by omega), Int.emod_lt_of_pos _ hpos⟩
  have hr : randIntn draw ((g.actions.length : Nat) : Int) g
      = .done ((draw : Int) % (g.actions.length : Int)) g := by
    unfold randIntn
    rw [if_neg (by omega)]
  have hs : sliceAt g.actions ((draw : Int) % (g.actions.length : Int)) g
      = .done (g.actions.get
          ⟨((draw : Int) % (g.actions.length : Int)).toNat, by omega⟩) g := by
    unfold sliceAt
    rw [dif_pos hrange]
  have hmem := List.get_mem g.actions
    ((draw : Int) % (g.actions.length : Int)).toNat (by omega)
  obtain ⟨i, hi, he⟩ := emptyCells_actions g _ hmem
  refine ⟨_, hmem, ?_, ?_⟩
  · unfold RandomMove
    simp only [bind]
    rw [bind_getGame, ho]
    simp only [Bool.false_eq_true, if_false]
    rw [bind_Actions, bind_of_done hr, bind_of_done hs, he, Result_empty hi, child_empty hi]
  · rw [he, Result_empty hi, child_empty hi]

/-! ## Sequences of moves -/

theorem playMoves_cons (pos : Int) (rest : List Int) {g g1 : Game}
    (h : Result pos g = .done () g1) : playMoves (pos :: rest) g = playMoves rest g1 := by
  show GoM.bind (Result pos) (fun _ => playMoves rest) g = _
  rw [bind_of_done h]

/-! ## Undoing the last move -/

theorem reachable_of_along : ∀ {stack : List Int} {g : Game}, Along stack g → Reachable g
  | [], g, h => by
      have e : g = New := h
      rw [e]
      exact Reachable.new
  | pos :: stack, g, h => by
      obtain ⟨g0, h0, hr⟩ := h
      exact Reachable.step pos (reachable_of_along h0) hr

theorem LifoReachable.along {stack : List Int} {g : Game} (h : LifoReachable stack g) :
    Along stack g := by
  induction h with
  | new => exact rfl
  | apply pos _ hr ih => exact ⟨_, ih, hr⟩
  | @undo stack g g1 pos _ hr ih =>
      obtain ⟨g0, h0, hres⟩ := ih
      obtain ⟨hp, hc, rfl⟩ := Result_done_iff.mp hres
      have hcl := clear_place (reachable_of_along h0).cached hc
      rw [ResetPos_run, dif_pos hp, hcl] at hr
      injection hr with _ e
      rw [← e]
      exact h0

theorem reachable_of_lifo {stack : List Int} {g : Game} (h : LifoReachable stack g) :
    Reachable g :=
  reachable_of_along h.along

theorem markedCells_add (b : Board) : markedCells b + (emptyPositions b).length = 9 := by
  have h := List.length_eq_countP_add_countP (fun i : Fin 9 => decide (b i = 0)) boardIndices
  rw [length_emptyPositions]
  unfold markedCells
  have e : (fun i : Fin 9 => decide (b i ≠ 0))
      = (fun a => decide ¬ (decide (b a = 0) = true)) := by
    funext i
    simp
  rw [e]
  have hl : boardIndices.length = 9 := rfl
  omega

theorem Counted.marked {g : Game} (h : Counted g) :
    (markedCells g.board : Int) = g.nMoves ∧ 0 ≤ g.nMoves ∧ g.nMoves ≤ 9 := by
  have h1 := markedCells_add g.board
  unfold Counted at h
  omega

/-! ## The reference value -/

theorem foldl_max_sentinel {α : Type} (f : α → Int) (a : α) (rest : List α)
    (h : -1000 ≤ f a) :
    (a :: rest).foldl (fun m x => max m (f x)) (-1000) = maxOf ((a :: rest).map f) := by
  simp only [List.foldl_cons, List.map_cons, maxOf]
  rw [List.foldl_map]
  congr 1
  omega

theorem foldl_min_sentinel {α : Type} (f : α → Int) (a : α) (rest : List α)
    (h : f a ≤ 1000) :
    (a :: rest).foldl (fun m x => min m (f x)) 1000 = minOf ((a :: rest).map f) := by
  simp only [List.foldl_cons, List.map_cons, minOf]
  rw [List.foldl_map]
  congr 1
  omega

theorem reachable_child {g : Game} (hg : Reachable g) {pos : Int} (hp : pos ∈ g.actions) :
    Reachable (g.child pos) := by
  obtain ⟨i, hi, rfl⟩ := emptyCells_actions g pos hp
  exact Reachable.step _ hg (by rw [Result_empty hi, child_empty hi])

theorem gameValue_eq_refValue : ∀ (depth : Nat) (mx : Bool) (g : Game), Reachable g →
    gameValue depth mx g = refValue depth mx g
  | 0, _, _, _ => rfl
  | depth + 1, mx, g, hg => by
      have ih : ∀ b, ∀ pos ∈ g.actions,
          gameValue depth b (g.child pos) = refValue depth b (g.child pos) :=
        fun b pos hp => gameValue_eq_refValue depth b (g.child pos) (reachable_child hg hp)
      have hb : ∀ b, ∀ pos ∈ g.actions, -1000 ≤ gameValue depth b (g.child pos)
          ∧ gameValue depth b (g.child pos) ≤ 1000 := fun b pos hp =>
        gameValue_bounds depth b (g.child pos) (reachable_child hg hp).cached
      unfold gameValue refValue
      cases hover : g.GameOver
      · simp only [Bool.false_eq_true, if_false]
        obtain ⟨a, rest, hl⟩ :=
          List.exists_cons_of_ne_nil (actions_ne_nil hg.cached hg.counted hover)
        cases mx
        · simp only [Bool.false_eq_true, if_false, Bool.not_false]
          rw [← List.map_congr_left (ih true), hl]
          exact foldl_min_sentinel _ a rest (hb true a (hl ▸ List.mem_cons_self _ _)).2
        · simp only [if_true, Bool.not_true]
          rw [← List.map_congr_left (ih false), hl]
          exact foldl_max_sentinel _ a rest (hb false a (hl ▸ List.mem_cons_self _ _)).1
      · rfl

/-! ## The state after a pruned search, for any window -/

theorem alphaLoop_frame (child : Int → Int → GoM Int) {g : Game} (hg : Cached g) (beta : Int) :
    ∀ (l : List Int) (m alpha : Int), EmptyCells g l →
      (∀ pos ∈ l, ∀ a b, ∃ r, child a b (g.child pos) = .done r (g.child pos)) →
      ∃ r, alphaLoop child beta l m alpha g = .done r g
  | [], m, _, _, _ => ⟨m, rfl⟩
  | pos :: rest, m, alpha, hl, hc => by
      obtain ⟨i, hi, hpos⟩ := hl pos (List.mem_cons_self _ _)
      obtain ⟨r, hr⟩ := hc pos (List.mem_cons_self _ _) alpha beta
      have ih := fun m alpha => alphaLoop_frame child hg beta rest m alpha
        (fun p hp => hl p (List.mem_cons_of_mem _ hp))
        (fun p hp => hc p (List.mem_cons_of_mem _ hp))
      subst hpos
      rw [child_empty hi] at hr
      unfold alphaLoop
      simp only [bind]
      rw [bind_of_done (Result_empty hi), bind_of_done hr, bind_of_done (ResetPos_place hg hi)]
      split
      · exact ⟨_, rfl⟩
      · exact ih _ _

theorem betaLoop_frame (child : Int → Int → GoM Int) {g : Game} (hg : Cached g) (alpha : Int) :
    ∀ (l : List Int) (m beta : Int), EmptyCells g l →
      (∀ pos ∈ l, ∀ a b, ∃ r, child a b (g.child pos) = .done r (g.child pos)) →
      ∃ r, betaLoop child alpha l m beta g = .done r g
  | [], m, _, _, _ => ⟨m, rfl⟩
  | pos :: rest, m, beta, hl, hc => by
      obtain ⟨i, hi, hpos⟩ := hl pos (List.mem_cons_self _ _)
      obtain ⟨r, hr⟩ := hc pos (List.mem_cons_self _ _) alpha beta
      have ih := fun m beta => betaLoop_frame child hg alpha rest m beta
        (fun p hp => hl p (List.mem_cons_of_mem _ hp))
        (fun p hp => hc p (List.mem_cons_of_mem _ hp))
      subst hpos
      rw [child_empty hi] at hr
      unfold betaLoop
      simp only [bind]
      rw [bind_of_done (Result_empty hi), bind_of_done hr, bind_of_done (ResetPos_place hg hi)]
      split
      · exact ⟨_, rfl⟩
      · exact ih _ _

theorem minimaxAlphaBeta_frame : ∀ (depth : Nat) (alpha beta : Int) (mx : Bool) (g : Game),
    Cached g → ∃ r, minimaxAlphaBeta depth alpha beta mx g = .done r g
  | 0, _, _, _, g, _ => ⟨g.Score, rfl⟩
  | depth + 1, alpha, beta, mx, g, hg => by
      have hc : ∀ b0, ∀ pos ∈ g.actions, ∀ a b,
          ∃ r, minimaxAlphaBeta depth a b b0 (g.child pos) = .done r (g.child pos) :=
        fun b0 pos hp a b =>
          minimaxAlphaBeta_frame depth a b b0 (g.child pos)
            (cached_child (emptyCells_actions g) hp)
      unfold minimaxAlphaBeta
      simp only [bind, bind_getGame]
      cases hover : g.GameOver
      · cases mx
        · simp only [Bool.false_eq_true, if_false, bind_Actions]
          exact betaLoop_frame _ hg alpha _ _ _ (emptyCells_actions g) (hc true)
        · simp only [Bool.false_eq_true, if_false, if_true, bind_Actions]
          exact alphaLoop_frame _ hg beta _ _ _ (emptyCells_actions g) (hc false)
      · simp only [if_true]
        exact ⟨g.Score, rfl⟩

/-! ## Facts about single moves and the engine's choice -/

theorem place_isOver (g : Game) (i : Fin 9) :
    (g.place i).isOver = decide ((g.place i).nMoves = 9 ∨ 0 < ownedLines (g.place i).board 1
      ∨ 0 < ownedLines (g.place i).board (-1)) := by
  simp only [Game.place, evaluation_eq]

theorem place_points (g : Game) (i : Fin 9) :
    (g.place i).points = if g.playerTurn then (ownedLines (g.place i).board 1 : Int)
      else -(ownedLines (g.place i).board (-1) : Int) := by
  simp only [Game.place, evaluation_eq]

theorem gameValue_over (depth : Nat) (mx : Bool) {g : Game} (h : g.GameOver = true) :
    gameValue depth mx g = g.Score := by
  cases depth with
  | zero => rfl
  | succ d =>
      unfold gameValue
      rw [h]
      rfl

theorem bestMove_spec {g : Game} (hne : g.actions ≠ []) :
    g.bestMove ∈ g.actions
      ∧ ∀ m ∈ g.actions,
          gameValue (g.actions.length - 1) false (g.child m)
            ≤ gameValue (g.actions.length - 1) false (g.child g.bestMove)
          ∧ (gameValue (g.actions.length - 1) false (g.child m)
              = gameValue (g.actions.length - 1) false (g.child g.bestMove)
              → g.bestMove ≤ m) := by
  obtain ⟨a, rest, hl⟩ := List.exists_cons_of_ne_nil hne
  have hpick := pickBest_first_max
    (fun pos => gameValue (g.actions.length - 1) false (g.child pos)) a rest
    (hl ▸ actions_sorted g)
    (fun m hm => (gameValue_bounds _ _ _
      (cached_child (emptyCells_actions g) (hl ▸ hm))).1)
  have hb : g.bestMove
      = pickBest (fun pos => gameValue (g.actions.length - 1) false (g.child pos))
          (a :: rest) (-1000) a := by
    unfold Game.bestMove
    rw [hl]
    rfl
  rw [← hb] at hpick
  exact ⟨hl ▸ hpick.1, fun m hm => hpick.2 m (hl ▸ hm)⟩

theorem mainLoop_succ (fuel : Nat) (user_input : Int) (input : List Int) (g : Game) :
    mainLoop (fuel + 1) user_input input g
      = if g.GameOver then .done () g
        else GoM.bind IntelligentMoveAlphaBeta (fun _ => GoM.bind Actions (fun _ =>
          GoM.bind (Result (input.headD user_input))
            (fun _ => mainLoop fuel (input.headD user_input) input.tail))) g := by
  show GoM.bind getGame (fun g => if g.GameOver then pure ()
    else GoM.bind IntelligentMoveAlphaBeta (fun _ => GoM.bind Actions (fun _ =>
      GoM.bind (Result (input.headD user_input))
        (fun _ => mainLoop fuel (input.headD user_input) input.tail)))) g = _
  rw [bind_getGame]
  split <;> rfl

theorem mainLoop_step (fuel : Nat) (user_input next : Int) (rest : List Int) {g g1 g2 : Game}
    (h : g.GameOver = false) (he : IntelligentMoveAlphaBeta g = .done () g1)
    (hr : Result next g1 = .done () g2) :
    mainLoop (fuel + 1) user_input (next :: rest) g = mainLoop fuel next rest g2 := by
  rw [mainLoop_succ, h]
  simp only [Bool.false_eq_true, if_false, List.headD_cons, List.tail_cons]
  rw [bind_of_done he, bind_Actions, bind_of_done hr]

theorem mainLoop_over (fuel : Nat) (user_input : Int) (input : List Int) {g : Game}
    (h : g.GameOver = true) : mainLoop fuel user_input input g = .done () g := by
  cases fuel with
  | zero => rfl
  | succ n => rw [mainLoop_succ, h]; rfl

/-- When the input has ended in a game that is not over, the engine moves and
`Result` is called again with the position read last. -/
theorem mainLoop_input_ended (fuel : Nat) (user_input : Int) {g g1 : Game} {p : GoPanic}
    {g2 : Game} (h : g.GameOver = false) (he : IntelligentMoveAlphaBeta g = .done () g1)
    (hr : Result user_input g1 = .fault p g2) :
    mainLoop (fuel + 1) user_input [] g = .fault p g2 := by
  rw [mainLoop_succ, h]
  simp only [Bool.false_eq_true, if_false, List.headD_nil]
  rw [bind_of_done he, bind_Actions, bind_of_fault hr]

theorem playable_lateWinGame : Playable lateWinGame :=
  (((((((Playable.new.child 1 (by decide)).child 4 (by decide)).child 2 (by decide)).child 5
    (by decide)).child 7 (by decide)).child 9 (by decide)).child 8 (by decide)).child 6
    (by decide)

theorem playable_lastCellGame : Playable lastCellGame :=
  (((((((Playable.new.child 1 (by decide)).child 3 (by decide)).child 2 (by decide)).child 4
    (by decide)).child 6 (by decide)).child 5 (by decide)).child 7 (by decide)).child 9
    (by decide)

theorem playable_firstCanWin : Playable firstCanWin :=
  (((((Playable.new.child 1 (by decide)).child 2 (by decide)).child 3 (by decide)).child 4
    (by decide)).child 5 (by decide)).child 7 (by decide)

theorem playable_secondCanWin : Playable secondCanWin :=
  ((((Playable.new.child 1 (by decide)).child 2 (by decide)).child 3 (by decide)).child 5
    (by decide)).child 7 (by decide)

theorem playable_topRowOpen : Playable topRowOpen :=
  ((((Playable.new.child 5 (by decide)).child 1 (by decide)).child 9 (by decide)).child 3
    (by decide)).child 6 (by decide)

/-! ## The engine on concrete positions -/

theorem engine_at_firstCanWin :
    IntelligentMove firstCanWin = .done () (firstCanWin.child 8)
      ∧ IntelligentMoveAlphaBeta firstCanWin = .done () (firstCanWin.child 8) := by
  have h := Bits.intelligentMove ⟨74, 21, 6, false⟩ (Bits.valid_of_land (by decide))
    (by decide) (by decide) 7 (by decide!)
  have e1 : Bits.game ⟨74, 21, 6, false⟩ = firstCanWin := by decide
  have e2 : (Bits.place ⟨74, 21, 6, false⟩ 7).game = firstCanWin.child 8 := by decide
  rw [e1, e2] at h
  exact h

theorem engine_at_secondCanWin :
    IntelligentMove secondCanWin = .done () (secondCanWin.child 4)
      ∧ IntelligentMoveAlphaBeta secondCanWin = .done () (secondCanWin.child 4) := by
  have h := Bits.intelligentMove ⟨18, 69, 5, true⟩ (Bits.valid_of_land (by decide))
    (by decide) (by decide) 3 (by decide!)
  have e1 : Bits.game ⟨18, 69, 5, true⟩ = secondCanWin := by decide
  have e2 : (Bits.place ⟨18, 69, 5, true⟩ 3).game = secondCanWin.child 4 := by decide
  rw [e1, e2] at h
  exact h

theorem engine_first_move : IntelligentMoveAlphaBeta New = .done () (New.child 5) := by
  have h := engine_move_1.2
  have e : Bits.game ⟨0, 16, 1, true⟩ = New.child 5 := by decide
  rw [game_start, e] at h
  exact h

theorem engine_second_move :
    IntelligentMoveAlphaBeta ((New.child 5).child 1)
      = .done () (((New.child 5).child 1).child 9) := by
  have h := engine_move_3.2
  have e1 : Bits.game ⟨1, 16, 2, false⟩ = (New.child 5).child 1 := by decide
  have e2 : Bits.game ⟨1, 272, 3, true⟩ = ((New.child 5).child 1).child 9 := by decide
  rw [e1, e2] at h
  exact h

theorem engine_third_move :
    IntelligentMoveAlphaBeta ((((New.child 5).child 1).child 9).child 3)
      = .done () topRowOpen := by
  have h := engine_move_5.2
  have e1 : Bits.game ⟨5, 272, 4, false⟩ = (((New.child 5).child 1).child 9).child 3 := by
    decide
  have e2 : Bits.game ⟨5, 304, 5, true⟩ = topRowOpen := by decide
  rw [e1, e2] at h
  exact h

/-- With no input at all `main` makes the first move of the engine and then
panics in `Result(0)`, on the index `-1`. -/
theorem main_without_input (fuel : Nat) :
    main (fuel + 1) [] = .fault .indexOutOfRange (New.child 5) :=
  mainLoop_input_ended fuel 0 (by decide) engine_first_move (by decide)

/-- When the input ends after the position 1, `main` makes the second move of
the engine and then panics in `Result(1)`, on a marked cell. -/
theorem main_input_ends_early (fuel : Nat) :
    main (fuel + 2) [1]
      = .fault .positionAlreadyMarked (((New.child 5).child 1).child 9) := by
  unfold main
  rw [mainLoop_step (fuel + 1) 0 1 [] (by decide) engine_first_move
    (by decide : Result 1 (New.child 5) = .done () ((New.child 5).child 1))]
  exact mainLoop_input_ended fuel 1 (by decide) engine_second_move (by decide)
/-! ## The claims -/

/-- C1. Round trip: in a state reachable from `New()` by `Result` calls on empty
cells, `Result(p)` on an empty cell (`p = i+1` for a cell index `i` of the
board) followed by `ResetPos(p)` returns twice and leaves a state equal to the
first one in board, playerTurn, nMoves, isOver and points. -/
theorem C1_result_resetPos_round_trip (g : Game) (hg : Reachable g) (i : Fin 9)
    (he : g.board i = 0) :
    ∃ g1 g2, Result ((i.val : Int) + 1) g = .done () g1
      ∧ ResetPos ((i.val : Int) + 1) g1 = .done () g2
      ∧ g2.board = g.board ∧ g2.playerTurn = g.playerTurn ∧ g2.nMoves = g.nMoves
      ∧ g2.isOver = g.isOver ∧ g2.points = g.points :=
  ⟨g.place i, g, Result_empty he, ResetPos_place hg.cached he, rfl, rfl, rfl, rfl, rfl⟩

theorem C1_round_trip_witness :
    Reachable (New.child 5) ∧ (New.child 5).board 0 = 0
      ∧ ∃ g1 g2, Result (((0 : Fin 9).val : Int) + 1) (New.child 5) = .done () g1
        ∧ ResetPos (((0 : Fin 9).val : Int) + 1) g1 = .done () g2
        ∧ g2.board = (New.child 5).board ∧ g2.playerTurn = (New.child 5).playerTurn
        ∧ g2.nMoves = (New.child 5).nMoves ∧ g2.isOver = (New.child 5).isOver
        ∧ g2.points = (New.child 5).points :=
  ⟨(Playable.new.child 5 (by decide)).reachable, by decide,
    C1_result_resetPos_round_trip (New.child 5)
      (Playable.new.child 5 (by decide)).reachable 0 (by decide)⟩

/-- C2. Pruning does not change the result: in a state reachable from `New()`
by `Result` calls on empty cells, for every depth and both values of
`maximizingPlayer`, `minimax` and `minimaxAlphaBeta` with the window
`(-1000, 1000)` both return, with the same integer (and both leave the state as
it was). -/
theorem C2_alphaBeta_returns_minimax (g : Game) (hg : Reachable g) (depth : Nat)
    (maximizingPlayer : Bool) :
    ∃ v, minimax depth maximizingPlayer g = .done v g
      ∧ minimaxAlphaBeta depth (-1000) 1000 maximizingPlayer g = .done v g :=
  ⟨gameValue depth maximizingPlayer g, minimax_run depth maximizingPlayer g hg.cached,
    minimaxAlphaBeta_full depth maximizingPlayer hg.cached⟩

theorem C2_pruning_witness :
    Reachable (New.child 5) ∧ ∃ v, minimax 8 false (New.child 5) = .done v (New.child 5)
      ∧ minimaxAlphaBeta 8 (-1000) 1000 false (New.child 5) = .done v (New.child 5) :=
  ⟨(Playable.new.child 5 (by decide)).reachable,
    C2_alphaBeta_returns_minimax (New.child 5)
      (Playable.new.child 5 (by decide)).reachable 8 false⟩

/-- C3, evaluated on the code: from `New()`, with `IntelligentMove` (likewise
`IntelligentMoveAlphaBeta`) called for the side to move until `GameOver()`
holds, play is `5, 1, 9, 3, 6, 2` and ends after six moves in a terminal state
with `Score() = 1` in which the top row is owned by the mark `1` of the second
player; it is not a draw. -/
theorem C3_self_play_ends_in_a_win :
    selfPlay IntelligentMove 9 New = .done () selfPlayEnd
      ∧ selfPlay IntelligentMoveAlphaBeta 9 New = .done () selfPlayEnd
      ∧ selfPlayEnd.GameOver = true ∧ selfPlayEnd.Score = 1
      ∧ (selfPlayEnd.board 0 = 1 ∧ selfPlayEnd.board 1 = 1 ∧ selfPlayEnd.board 2 = 1)
      ∧ ownedLines selfPlayEnd.board 1 = 1 :=
  ⟨selfPlay_run.1, selfPlay_run.2, by decide, by decide, by decide, by decide⟩

/-- C4. Postcondition of `Result` on an empty cell `i` (position `i+1`), for
every state whose counter is below the greatest `int` (from there `nMoves++`
would wrap around): it returns; cell `i` holds the mover's mark (`1` if
`playerTurn` was true, else `-1`); the other eight cells are unchanged; `nMoves`
grew by one and is still an `int`; `playerTurn` flipped; `points` is the number
of lines owned by `1` if `playerTurn` was true and minus the number of lines
owned by `-1` otherwise; `isOver` holds iff the new `nMoves` is 9 or some line
is owned by one mark. -/
theorem C4_result_postcondition (g : Game) (i : Fin 9) (he : g.board i = 0)
    (hn : g.nMoves < maxInt) :
    ∃ g1, Result ((i.val : Int) + 1) g = .done () g1
      ∧ g1.board i = (if g.playerTurn then 1 else -1)
      ∧ (∀ j : Fin 9, j ≠ i → g1.board j = g.board j)
      ∧ g1.nMoves = g.nMoves + 1 ∧ g1.nMoves ≤ maxInt
      ∧ g1.playerTurn = !g.playerTurn
      ∧ g1.points = (if g.playerTurn then (ownedLines g1.board 1 : Int)
          else -(ownedLines g1.board (-1) : Int))
      ∧ (g1.isOver = true ↔
          (g1.nMoves = 9 ∨ 0 < ownedLines g1.board 1 ∨ 0 < ownedLines g1.board (-1))) := by
  refine ⟨g.place i, Result_empty he, ?_, ?_, rfl, ?_, rfl, ?_, ?_⟩
  · simp [Game.place]
  · intro j hj
    simp [Game.place, Function.update_noteq hj]
  · show g.nMoves + 1 ≤ maxInt
    omega
  · simp only [Game.place, evaluation_eq]
  · simp only [Game.place, evaluation_eq, decide_eq_true_eq]

theorem C4_scenario_witness :
    (scenarioTopRow.board 2 = 0 ∧ scenarioTopRow.nMoves < maxInt)
      ∧ (∃ g1, Result (((2 : Fin 9).val : Int) + 1) scenarioTopRow = .done () g1
        ∧ g1.board 2 = (if scenarioTopRow.playerTurn then 1 else -1)
        ∧ (∀ j : Fin 9, j ≠ 2 → g1.board j = scenarioTopRow.board j)
        ∧ g1.nMoves = scenarioTopRow.nMoves + 1 ∧ g1.nMoves ≤ maxInt
        ∧ g1.playerTurn = !scenarioTopRow.playerTurn
        ∧ g1.points = (if scenarioTopRow.playerTurn then (ownedLines g1.board 1 : Int)
            else -(ownedLines g1.board (-1) : Int))
        ∧ (g1.isOver = true ↔
            (g1.nMoves = 9 ∨ 0 < ownedLines g1.board 1 ∨ 0 < ownedLines g1.board (-1))))
      ∧ (Result 3 scenarioTopRow).state.isOver = true
      ∧ (Result 3 scenarioTopRow).state.points = 1 :=
  ⟨⟨by decide, by decide⟩, C4_result_postcondition scenarioTopRow 2 (by decide) (by decide),
    by decide, by decide⟩

/-- C5. `Result` on position `i+1` panics exactly when cell `i` is not empty,
whatever `isOver` is; when it panics it is the "Position already marked!"
panic and the state at the panic is the state before the call; on an empty cell
it returns. -/
theorem C5_result_fails_iff_occupied (g : Game) (i : Fin 9) :
    ((∃ p g1, Result ((i.val : Int) + 1) g = .fault p g1) ↔ g.board i ≠ 0)
      ∧ (∀ p g1, Result ((i.val : Int) + 1) g = .fault p g1 →
          p = .positionAlreadyMarked ∧ g1 = g)
      ∧ ((∃ g1, Result ((i.val : Int) + 1) g = .done () g1) ↔ g.board i = 0) := by
  have h : 0 ≤ ((i.val : Int) + 1) - 1 ∧ ((i.val : Int) + 1) - 1 < 9 := by omega
  by_cases he : g.board i = 0
  · rw [Result_empty he]
    refine ⟨⟨?_, fun hn => absurd he hn⟩, ?_, ⟨fun _ => he, fun _ => ⟨_, rfl⟩⟩⟩
    · rintro ⟨p, g1, e⟩
      cases e
    · intro p g1 e
      cases e
  · have hr : Result ((i.val : Int) + 1) g = .fault .positionAlreadyMarked g := by
      rw [Result_run, dif_pos h, cellOf_succ, if_pos he]
    rw [hr]
    refine ⟨⟨fun _ => he, fun _ => ⟨_, _, rfl⟩⟩, ?_, ⟨?_, fun h0 => absurd h0 he⟩⟩
    · intro p g1 e
      cases e
      exact ⟨rfl, rfl⟩
    · rintro ⟨g1, e⟩
      cases e

/-- C6. `Actions` returns, for every state and without changing it, the empty
list when `isOver` holds and otherwise the list of the positions `i+1` of the
cells with `board[i] == 0`; that list is strictly ascending, has no duplicates,
and holds exactly those positions. -/
theorem C6_actions_lists_empty_cells (g : Game) :
    Actions g = .done (if g.isOver then [] else emptyPositions g.board) g
      ∧ (emptyPositions g.board).Pairwise (· < ·)
      ∧ (emptyPositions g.board).Nodup
      ∧ ∀ pos : Int, pos ∈ emptyPositions g.board
          ↔ ∃ i : Fin 9, g.board i = 0 ∧ pos = (i.val : Int) + 1 := by
  refine ⟨?_, emptyPositions_sorted _, ?_, fun pos => mem_emptyPositions⟩
  · rw [Actions_run, actions_eq]
  · exact (emptyPositions_sorted g.board).imp (fun h => ne_of_lt h)

/-- C7 as stated fails: after the legal game `1, 4, 2, 5, 3` the first player
owns the top row, `Actions()` returns the empty list and `nMoves` is 5. -/
theorem C7_counterexample :
    ∃ g l, Playable g ∧ Actions g = .done l g ∧ (l.length : Int) + g.nMoves ≠ 9 :=
  ⟨topRowGame, topRowGame.actions, playable_topRowGame, Actions_run _, by decide⟩

/-- C7, amended. In every state reachable from `New()` by legal play,
`len(Actions()) + nMoves == 9` holds exactly when the game is not over or
`nMoves` is 9 (when the game is over `Actions()` is the empty list). -/
theorem C7_actions_plus_moves (g : Game) (hg : Playable g) :
    ∃ l, Actions g = .done l g
      ∧ ((l.length : Int) + g.nMoves = 9 ↔ (g.GameOver = false ∨ g.nMoves = 9)) := by
  refine ⟨g.actions, Actions_run g, ?_⟩
  cases hover : g.isOver
  · have h := length_actions hg.reachable.counted hover
    exact ⟨fun _ => Or.inl hover, fun _ => h⟩
  · have hl : g.actions = [] := by
      rw [actions_eq, hover]
      rfl
    rw [hl]
    simp [Game.GameOver, hover]

theorem C7_amended_witness :
    Playable (New.child 5)
      ∧ ∃ l, Actions (New.child 5) = .done l (New.child 5)
        ∧ ((l.length : Int) + (New.child 5).nMoves = 9
            ↔ ((New.child 5).GameOver = false ∨ (New.child 5).nMoves = 9)) :=
  ⟨Playable.new.child 5 (by decide),
    C7_actions_plus_moves (New.child 5) (Playable.new.child 5 (by decide))⟩

/-- C8. No double winner: on every board reachable from `New()` by legal play
the tallies `playerScore` and `oppScore` of `Evaluate` are not both non-zero,
that is, no line owned by `1` exists together with a line owned by `-1`. -/
theorem C8_no_double_winner (g : Game) (hg : Playable g) :
    ¬ ((tallies g.board).1 ≠ 0 ∧ (tallies g.board).2 ≠ 0)
      ∧ ¬ (0 < ownedLines g.board 1 ∧ 0 < ownedLines g.board (-1)) := by
  have h := hg.one_winner
  rw [tallies_eq]
  constructor
  · simp only [ne_eq, Nat.cast_eq_zero]
    omega
  · omega

theorem C8_no_double_winner_witness :
    Playable topRowGame
      ∧ ¬ ((tallies topRowGame.board).1 ≠ 0 ∧ (tallies topRowGame.board).2 ≠ 0)
      ∧ ¬ (0 < ownedLines topRowGame.board 1 ∧ 0 < ownedLines topRowGame.board (-1)) :=
  ⟨playable_topRowGame, C8_no_double_winner topRowGame playable_topRowGame⟩

/-- C9. `Evaluate` equals its reference definition: with `a` the number of the
8 lines whose cells are all `1` and `b` the number whose cells are all `-1`, it
returns `(nMoves == 9 or a > 0 or b > 0, +a if playerTurn else -b)`, for every
state, and leaves the state unchanged. -/
theorem C9_evaluate_reference (g : Game) :
    Evaluate g
      = .done (decide (g.nMoves = 9 ∨ 0 < ownedLines g.board 1 ∨ 0 < ownedLines g.board (-1)),
          if g.playerTurn then (ownedLines g.board 1 : Int)
          else -(ownedLines g.board (-1) : Int)) g := by
  rw [Evaluate_run, evaluation_eq]

/-- C10. Selection rule: in a state reachable by legal play in which the game
is not over, with `n = len(Actions())`, every candidate search
`minimax(g after Result(m), n-1, false)` returns a score, the pruned search with
window `(-1000, 1000)` returns the same score, and both `IntelligentMove` and
`IntelligentMoveAlphaBeta` leave the state of a single `Result(m*)` on the
first state, where `m*` is an available move of maximal score and the smallest
such position. -/
theorem C10_best_move_rule (g : Game) (hg : Playable g) (hover : g.GameOver = false) :
    ∃ (mstar : Int) (score : Int → Int),
      Actions g = .done g.actions g ∧ mstar ∈ g.actions
      ∧ (∀ m ∈ g.actions,
          minimax (g.actions.length - 1) false (g.child m) = .done (score m) (g.child m))
      ∧ (∀ m ∈ g.actions,
          minimaxAlphaBeta (g.actions.length - 1) (-1000) 1000 false (g.child m)
            = .done (score m) (g.child m))
      ∧ (∀ m ∈ g.actions, score m ≤ score mstar)
      ∧ (∀ m ∈ g.actions, score m = score mstar → mstar ≤ m)
      ∧ Result mstar g = .done () (g.child mstar)
      ∧ IntelligentMove g = .done () (g.child mstar)
      ∧ IntelligentMoveAlphaBeta g = .done () (g.child mstar) := by
  have hc := hg.reachable.cached
  have hne := actions_ne_nil hc hg.reachable.counted hover
  obtain ⟨h1, h2, h3, h4⟩ := IntelligentMove_run hc hne
  have hcached : ∀ pos ∈ g.actions, Cached (g.child pos) := fun pos hp =>
    cached_child (emptyCells_actions g) hp
  obtain ⟨a, rest, hl⟩ := List.exists_cons_of_ne_nil hne
  have hpick := pickBest_first_max
    (fun pos => gameValue (g.actions.length - 1) false (g.child pos)) a rest
    (hl ▸ actions_sorted g)
    (fun m hm => (gameValue_bounds _ _ _ (hcached m (hl ▸ hm))).1)
  have hb : g.bestMove
      = pickBest (fun pos => gameValue (g.actions.length - 1) false (g.child pos))
          (a :: rest) (-1000) a := by
    unfold Game.bestMove
    rw [hl]
    rfl
  rw [← hb] at hpick
  refine ⟨g.bestMove, fun pos => gameValue (g.actions.length - 1) false (g.child pos),
    Actions_run g, h4, fun m hm => minimax_run _ _ _ (hcached m hm),
    fun m hm => minimaxAlphaBeta_full _ _ (hcached m hm), ?_, ?_, h3, h1, h2⟩
  · intro m hm
    exact (hpick.2 m (hl ▸ hm)).1
  · intro m hm
    exact (hpick.2 m (hl ▸ hm)).2

theorem C10_best_move_witness :
    Playable (New.child 5) ∧ (New.child 5).GameOver = false
      ∧ ∃ (mstar : Int) (score : Int → Int),
        Actions (New.child 5) = .done (New.child 5).actions (New.child 5)
        ∧ mstar ∈ (New.child 5).actions
        ∧ (∀ m ∈ (New.child 5).actions,
            minimax ((New.child 5).actions.length - 1) false ((New.child 5).child m)
              = .done (score m) ((New.child 5).child m))
        ∧ (∀ m ∈ (New.child 5).actions,
            minimaxAlphaBeta ((New.child 5).actions.length - 1) (-1000) 1000 false
              ((New.child 5).child m) = .done (score m) ((New.child 5).child m))
        ∧ (∀ m ∈ (New.child 5).actions, score m ≤ score mstar)
        ∧ (∀ m ∈ (New.child 5).actions, score m = score mstar → mstar ≤ m)
        ∧ Result mstar (New.child 5) = .done () ((New.child 5).child mstar)
        ∧ IntelligentMove (New.child 5) = .done () ((New.child 5).child mstar)
        ∧ IntelligentMoveAlphaBeta (New.child 5) = .done () ((New.child 5).child mstar) :=
  ⟨Playable.new.child 5 (by decide), by decide,
    C10_best_move_rule (New.child 5) (Playable.new.child 5 (by decide)) (by decide)⟩

/-- C11 as stated fails: after the legal game `1, 4, 2, 5, 7, 9, 8, 6` the
second player owns the middle row, cell 3 is the only empty cell, and both
engines panic on `availableActions[0]` because `Actions()` is empty. -/
theorem C11_counterexample :
    Reachable lateWinGame ∧ (∀ j : Fin 9, lateWinGame.board j = 0 ↔ j = 2)
      ∧ IntelligentMove lateWinGame = .fault .indexOutOfRange lateWinGame
      ∧ IntelligentMoveAlphaBeta lateWinGame = .fault .indexOutOfRange lateWinGame :=
  ⟨playable_lateWinGame.reachable, by decide, by decide, by decide⟩

/-- C11, amended. In every state reachable from `New()` by `Result` calls on
empty cells in which the game is not over and exactly one cell `c` is empty,
`IntelligentMove` and `IntelligentMoveAlphaBeta` return, and the board they
leave differs from the board before only in cell `c`, which holds the mover's
mark. -/
theorem C11_last_cell_is_played (g : Game) (hg : Reachable g) (hover : g.GameOver = false)
    (c : Fin 9) (hc : ∀ j : Fin 9, g.board j = 0 ↔ j = c) :
    ∃ g1, IntelligentMove g = .done () g1 ∧ IntelligentMoveAlphaBeta g = .done () g1
      ∧ g1.board c = (if g.playerTurn then 1 else -1)
      ∧ ∀ j : Fin 9, j ≠ c → g1.board j = g.board j := by
  have hne : g.actions ≠ [] := actions_ne_nil hg.cached hg.counted hover
  obtain ⟨h1, h2, _, h4⟩ := IntelligentMove_run hg.cached hne
  obtain ⟨i, hi, hpos⟩ := emptyCells_actions g _ h4
  have hic : i = c := (hc i).mp hi
  subst hic
  rw [hpos, child_empty hi] at h1 h2
  refine ⟨g.place i, h1, h2, ?_, ?_⟩
  · simp [Game.place]
  · intro j hj
    simp [Game.place, Function.update_noteq hj]

theorem C11_last_cell_witness :
    Reachable lastCellGame ∧ lastCellGame.GameOver = false
      ∧ (∀ j : Fin 9, lastCellGame.board j = 0 ↔ j = 7)
      ∧ ∃ g1, IntelligentMove lastCellGame = .done () g1
        ∧ IntelligentMoveAlphaBeta lastCellGame = .done () g1
        ∧ g1.board 7 = (if lastCellGame.playerTurn then 1 else -1)
        ∧ ∀ j : Fin 9, j ≠ 7 → g1.board j = lastCellGame.board j :=
  ⟨playable_lastCellGame.reachable, by decide, by decide,
    C11_last_cell_is_played lastCellGame playable_lastCellGame.reachable (by decide) 7
      (by decide)⟩

/-- C12 as stated fails: in `New()` `playerTurn` is false, and the first
`Result`, here on position 1, writes `-1` into the cell, not `1`. -/
theorem C12_counterexample :
    New.playerTurn = false
      ∧ ∃ g1, Result 1 New = .done () g1 ∧ g1.board 0 = -1 ∧ g1.board 0 ≠ 1 :=
  ⟨rfl, New.child 1, by decide, by decide, by decide⟩

/-- C12, amended. `New()` has all nine cells empty, `nMoves = 0`,
`isOver = false` and `playerTurn = false`: the first `Result` on a new game, on
any position `i+1`, returns and marks the cell with `-1`, the mark whose
completed lines `Evaluate` counts in `oppScore` and reports with a minus sign;
the stored score is minus the number of lines owned by `-1` and the turn passes
to the mark `1`. -/
theorem C12_new_game (i : Fin 9) :
    (∀ j : Fin 9, New.board j = 0) ∧ New.nMoves = 0 ∧ New.isOver = false
      ∧ New.playerTurn = false
      ∧ ∃ g1, Result ((i.val : Int) + 1) New = .done () g1
        ∧ g1.board i = -1 ∧ (∀ j : Fin 9, j ≠ i → g1.board j = 0)
        ∧ g1.nMoves = 1 ∧ g1.playerTurn = true
        ∧ (tallies g1.board).2 = (ownedLines g1.board (-1) : Int)
        ∧ g1.points = -(tallies g1.board).2 := by
  refine ⟨fun _ => rfl, rfl, rfl, rfl, New.place i, Result_empty rfl, ?_, ?_, rfl, rfl, ?_, ?_⟩
  · simp [Game.place, New]
  · intro j hj
    simp [Game.place, New, Function.update_noteq hj]
  · rw [tallies_eq]
  · rw [place_points, tallies_eq]
    rfl

/-- C13 as stated fails: after `Result(1)`, ..., `Result(9)` from `New()` the
state is not one with `Score() = 0`. -/
theorem C13_counterexample :
    ¬ ∃ g, playMoves [1, 2, 3, 4, 5, 6, 7, 8, 9] New = .done () g
      ∧ g.GameOver = true ∧ g.Score = 0 := by
  have h : playMoves [1, 2, 3, 4, 5, 6, 7, 8, 9] New = .done () nineMovesEnd := by decide!
  rintro ⟨g, hg, _, hs⟩
  rw [h] at hg
  injection hg with _ e
  rw [← e] at hs
  exact absurd hs (by decide)

/-- C13, amended. From `New()` the calls `Result(1)`, ..., `Result(9)` in
that order all return; `GameOver()` is false after the sixth call and true
after the seventh, which completes a diagonal for the first player; after the
ninth call `GameOver()` is true and `Score()` is `-2`, the first player owning
both diagonals. -/
theorem C13_nine_moves_in_order :
    playMoves [1, 2, 3, 4, 5, 6, 7, 8, 9] New = .done () nineMovesEnd
      ∧ nineMovesEnd.GameOver = true ∧ nineMovesEnd.Score = -2
      ∧ ownedLines nineMovesEnd.board (-1) = 2 ∧ ownedLines nineMovesEnd.board 1 = 0
      ∧ (playMoves [1, 2, 3, 4, 5, 6] New).state.GameOver = false
      ∧ (playMoves [1, 2, 3, 4, 5, 6, 7] New).state.GameOver = true := by
  refine ⟨by decide!, by decide, by decide, by decide, by decide, by decide!, by decide!⟩

/-- C14 as stated fails: in the terminal state after the legal game
`1, 4, 2, 5, 3` `Actions()` is empty and `RandomMove` returns normally. -/
theorem C14_counterexample :
    Actions topRowGame = .done [] topRowGame
      ∧ RandomMove 0 topRowGame = .done () topRowGame :=
  ⟨by decide, by decide⟩

/-- C14, amended. For every state and every random draw: when `isOver` holds
`RandomMove` returns without changing the state; when `isOver` does not hold
and `Actions()` is empty it panics in `rand.Intn` with the state unchanged;
when `Actions()` is not empty it returns and the state is that of a single
`Result(pos)` for a member `pos` of `Actions()`. -/
theorem C14_random_move (g : Game) (draw : Nat) :
    Actions g = .done g.actions g
      ∧ (g.isOver = true → RandomMove draw g = .done () g)
      ∧ (g.isOver = false → g.actions = [] → RandomMove draw g = .fault .invalidArgument g)
      ∧ (g.actions ≠ [] → ∃ pos ∈ g.actions, RandomMove draw g = .done () (g.child pos)
          ∧ Result pos g = .done () (g.child pos)) :=
  ⟨Actions_run g, RandomMove_over draw, RandomMove_no_choice draw, RandomMove_choice draw⟩

/-- C15. Move-counter invariant: in every state reachable from `New()` by
`Result` calls on empty cells interleaved with `ResetPos` calls that undo the
most recent move not yet undone, the number of non-empty cells equals `nMoves`
and `0 <= nMoves <= 9`. -/
theorem C15_move_counter (stack : List Int) (g : Game) (hg : LifoReachable stack g) :
    (markedCells g.board : Int) = g.nMoves ∧ 0 ≤ g.nMoves ∧ g.nMoves ≤ 9 :=
  (reachable_of_lifo hg).counted.marked

theorem C15_move_counter_witness :
    LifoReachable [5] (New.child 5)
      ∧ (markedCells (New.child 5).board : Int) = (New.child 5).nMoves
      ∧ 0 ≤ (New.child 5).nMoves ∧ (New.child 5).nMoves ≤ 9 :=
  ⟨LifoReachable.undo 1
      (LifoReachable.apply 1
        (LifoReachable.apply 5 LifoReachable.new
          (by decide : Result 5 New = .done () (New.child 5)))
        (by decide : Result 1 (New.child 5) = .done () ((New.child 5).child 1)))
      (by decide : ResetPos 1 ((New.child 5).child 1) = .done () (New.child 5)),
    C15_move_counter [5] (New.child 5)
      (LifoReachable.undo 1
        (LifoReachable.apply 1
          (LifoReachable.apply 5 LifoReachable.new
            (by decide : Result 5 New = .done () (New.child 5)))
          (by decide : Result 1 (New.child 5) = .done () ((New.child 5).child 1)))
        (by decide : ResetPos 1 ((New.child 5).child 1) = .done () (New.child 5)))⟩

/-- C16. Derived values never drift: in every state reachable from `New()` by
`Result` calls on empty cells interleaved with last-in-first-out `ResetPos`
calls, `Evaluate` run with `playerTurn` negated returns the cached pair
`(isOver, points)`; so `GameOver()` holds iff `nMoves` is 9 or a line is owned,
and `Score()` is the number of lines owned by `1` when the mark `-1` is to
move and minus the number of lines owned by `-1` when the mark `1` is. -/
theorem C16_cached_values_agree (stack : List Int) (g : Game) (hg : LifoReachable stack g) :
    Evaluate { g with playerTurn := !g.playerTurn }
        = .done (g.isOver, g.points) { g with playerTurn := !g.playerTurn }
      ∧ g.GameOver = decide (g.nMoves = 9 ∨ 0 < ownedLines g.board 1
          ∨ 0 < ownedLines g.board (-1))
      ∧ g.Score = (if g.playerTurn then -(ownedLines g.board (-1) : Int)
          else (ownedLines g.board 1 : Int)) := by
  obtain ⟨h1, h2⟩ := (reachable_of_lifo hg).cached
  refine ⟨?_, ?_, ?_⟩
  · rw [Evaluate_run]
    exact congrArg (fun e => Run.done e _) (Prod.ext h1.symm h2.symm)
  · show g.isOver = _
    rw [h1, evaluation_eq]
  · show g.points = _
    rw [h2, evaluation_eq]
    cases g.playerTurn <;> rfl

theorem C16_cached_values_witness :
    LifoReachable [1, 5] ((New.child 5).child 1)
      ∧ Evaluate { (New.child 5).child 1 with playerTurn := !((New.child 5).child 1).playerTurn }
          = .done (((New.child 5).child 1).isOver, ((New.child 5).child 1).points)
              { (New.child 5).child 1 with
                playerTurn := !((New.child 5).child 1).playerTurn }
      ∧ ((New.child 5).child 1).GameOver
          = decide (((New.child 5).child 1).nMoves = 9
              ∨ 0 < ownedLines ((New.child 5).child 1).board 1
              ∨ 0 < ownedLines ((New.child 5).child 1).board (-1))
      ∧ ((New.child 5).child 1).Score
          = (if ((New.child 5).child 1).playerTurn
              then -(ownedLines ((New.child 5).child 1).board (-1) : Int)
              else (ownedLines ((New.child 5).child 1).board 1 : Int)) :=
  ⟨LifoReachable.apply 1
      (LifoReachable.apply 5 LifoReachable.new
        (by decide : Result 5 New = .done () (New.child 5)))
      (by decide : Result 1 (New.child 5) = .done () ((New.child 5).child 1)),
    C16_cached_values_agree [1, 5] ((New.child 5).child 1)
      (LifoReachable.apply 1
        (LifoReachable.apply 5 LifoReachable.new
          (by decide : Result 5 New = .done () (New.child 5)))
        (by decide : Result 1 (New.child 5) = .done () ((New.child 5).child 1)))⟩

/-- C17. `minimax` returns the reference value on immutable copies: in every
state reachable from `New()` by `Result` calls on empty cells, for every depth
and flag, `minimax(g, d, mx)` returns `V(g, d, mx)`. -/
theorem C17_minimax_is_reference_value (g : Game) (hg : Reachable g) (depth : Nat)
    (mx : Bool) :
    minimax depth mx g = .done (refValue depth mx g) g := by
  rw [minimax_run depth mx g hg.cached, gameValue_eq_refValue depth mx g hg]

theorem C17_reference_value_witness :
    Reachable (New.child 5)
      ∧ minimax 8 false (New.child 5) = .done (refValue 8 false (New.child 5)) (New.child 5) :=
  ⟨(Playable.new.child 5 (by decide)).reachable,
    C17_minimax_is_reference_value (New.child 5) (Playable.new.child 5 (by decide)).reachable
      8 false⟩

/-- C18. Search leaves the state as it found it: in every state reachable from
`New()` by `Result` calls on empty cells, for every depth, flag and window,
`minimax` and `minimaxAlphaBeta` return and the state after the call equals the
state before it, cut-offs included. -/
theorem C18_search_restores_state (g : Game) (hg : Reachable g) (depth : Nat) (mx : Bool)
    (alpha beta : Int) :
    (∃ v, minimax depth mx g = .done v g)
      ∧ (∃ r, minimaxAlphaBeta depth alpha beta mx g = .done r g) :=
  ⟨⟨_, minimax_run depth mx g hg.cached⟩,
    minimaxAlphaBeta_frame depth alpha beta mx g hg.cached⟩

theorem C18_cut_off_witness :
    Reachable (New.child 5)
      ∧ (∃ v, minimax 8 false (New.child 5) = .done v (New.child 5))
      ∧ (∃ r, minimaxAlphaBeta 8 0 0 false (New.child 5) = .done r (New.child 5)) :=
  ⟨(Playable.new.child 5 (by decide)).reachable,
    C18_search_restores_state (New.child 5) (Playable.new.child 5 (by decide)).reachable
      8 false 0 0⟩

/-- C19 as stated fails for both players.  After the legal game
`1, 2, 3, 4, 5, 7` the first player (mark `-1`) can complete a diagonal with
position 9, and both engines play 8, after which the game is not over.  After
the legal game `1, 2, 3, 5, 7` the second player (mark `1`) can complete the
middle column with position 8, and both engines play 4, after which the game is
not over. -/
theorem C19_counterexample :
    (Playable firstCanWin ∧ firstCanWin.GameOver = false ∧ firstCanWin.playerTurn = false
      ∧ (9 : Int) ∈ firstCanWin.actions ∧ 0 < ownedLines (firstCanWin.child 9).board (-1)
      ∧ IntelligentMove firstCanWin = .done () (firstCanWin.child 8)
      ∧ IntelligentMoveAlphaBeta firstCanWin = .done () (firstCanWin.child 8)
      ∧ (firstCanWin.child 8).GameOver = false)
    ∧ (Playable secondCanWin ∧ secondCanWin.GameOver = false ∧ secondCanWin.playerTurn = true
      ∧ (8 : Int) ∈ secondCanWin.actions ∧ 0 < ownedLines (secondCanWin.child 8).board 1
      ∧ IntelligentMove secondCanWin = .done () (secondCanWin.child 4)
      ∧ IntelligentMoveAlphaBeta secondCanWin = .done () (secondCanWin.child 4)
      ∧ (secondCanWin.child 4).GameOver = false) :=
  ⟨⟨playable_firstCanWin, by decide, by decide, by decide, by decide,
      engine_at_firstCanWin.1, engine_at_firstCanWin.2, by decide⟩,
    ⟨playable_secondCanWin, by decide, by decide, by decide, by decide,
      engine_at_secondCanWin.1, engine_at_secondCanWin.2, by decide⟩⟩

/-- C19, amended. In every state reachable by legal play in which the game is
not over and the mark `1` is to move (`playerTurn` true), if an available move
`w` completes a line for the mover, then both engines play an available move
`m*` whose minimax score is at least the score of `w`, which is the number of
lines `w` completes and so at least 1.  `m*` is `w` whenever no available move
scores more than `w` and no smaller available move scores the same; when `m*`
is `w` the game is over after the move and the mover owns a line. -/
theorem C19_engine_keeps_the_win_score (g : Game) (hg : Playable g)
    (hover : g.GameOver = false) (ht : g.playerTurn = true) (w : Int) (hw : w ∈ g.actions)
    (hline : 0 < ownedLines (g.child w).board 1) :
    ∃ (mstar : Int) (score : Int → Int), mstar ∈ g.actions
      ∧ (∀ m ∈ g.actions,
          minimax (g.actions.length - 1) false (g.child m) = .done (score m) (g.child m))
      ∧ IntelligentMove g = .done () (g.child mstar)
      ∧ IntelligentMoveAlphaBeta g = .done () (g.child mstar)
      ∧ score w = (ownedLines (g.child w).board 1 : Int)
      ∧ score w ≤ score mstar ∧ 1 ≤ score mstar
      ∧ ((∀ m ∈ g.actions, score m ≤ score w) → (∀ m ∈ g.actions, m < w → score m < score w) →
          mstar = w)
      ∧ (mstar = w → (g.child mstar).GameOver = true
          ∧ 0 < ownedLines (g.child mstar).board 1) := by
  have hc := hg.reachable.cached
  have hne := actions_ne_nil hc hg.reachable.counted hover
  obtain ⟨h1, h2, _, _⟩ := IntelligentMove_run hc hne
  obtain ⟨hmem, hmax⟩ := bestMove_spec hne
  have hwover : (g.child w).GameOver = true := by
    obtain ⟨i, hi, rfl⟩ := emptyCells_actions g w hw
    rw [child_empty hi] at hline ⊢
    show (g.place i).isOver = true
    rw [place_isOver]
    exact decide_eq_true (Or.inr (Or.inl hline))
  have hwscore : gameValue (g.actions.length - 1) false (g.child w)
      = (ownedLines (g.child w).board 1 : Int) := by
    rw [gameValue_over _ _ hwover]
    obtain ⟨i, hi, rfl⟩ := emptyCells_actions g w hw
    rw [child_empty hi]
    show (g.place i).points = _
    rw [place_points, ht]
    rfl
  have hge := (hmax w hw).1
  refine ⟨g.bestMove, fun pos => gameValue (g.actions.length - 1) false (g.child pos), hmem,
    fun m hm => minimax_run _ _ _ (cached_child (emptyCells_actions g) hm), h1, h2, hwscore,
    hge, ?_, ?_, ?_⟩
  · have : (1 : Int) ≤ (ownedLines (g.child w).board 1 : Int) := by omega
    beta_reduce
    omega
  · intro hall hlt
    beta_reduce at hall hlt
    have hle := hall g.bestMove hmem
    have hbw := (hmax w hw).2 (le_antisymm hge hle)
    rcases lt_or_eq_of_le hbw with h | h
    · have := hlt g.bestMove hmem h
      omega
    · exact h
  · intro e
    rw [e]
    exact ⟨hwover, hline⟩

theorem C19_amended_witness :
    Playable topRowOpen ∧ topRowOpen.GameOver = false ∧ topRowOpen.playerTurn = true
      ∧ (2 : Int) ∈ topRowOpen.actions ∧ 0 < ownedLines (topRowOpen.child 2).board 1
      ∧ ∃ (mstar : Int) (score : Int → Int), mstar ∈ topRowOpen.actions
        ∧ (∀ m ∈ topRowOpen.actions,
            minimax (topRowOpen.actions.length - 1) false (topRowOpen.child m)
              = .done (score m) (topRowOpen.child m))
        ∧ IntelligentMove topRowOpen = .done () (topRowOpen.child mstar)
        ∧ IntelligentMoveAlphaBeta topRowOpen = .done () (topRowOpen.child mstar)
        ∧ score 2 = (ownedLines (topRowOpen.child 2).board 1 : Int)
        ∧ score 2 ≤ score mstar ∧ 1 ≤ score mstar
        ∧ ((∀ m ∈ topRowOpen.actions, score m ≤ score 2) →
            (∀ m ∈ topRowOpen.actions, m < 2 → score m < score 2) → mstar = 2)
        ∧ (mstar = 2 → (topRowOpen.child mstar).GameOver = true
            ∧ 0 < ownedLines (topRowOpen.child mstar).board 1) :=
  ⟨playable_topRowOpen, by decide, by decide, by decide, by decide,
    C19_engine_keeps_the_win_score topRowOpen playable_topRowOpen (by decide) (by decide) 2
      (by decide) (by decide)⟩

/-- C20, evaluated on the code: in the game from `New()` in which the first
player moves with `IntelligentMoveAlphaBeta` as in `main` and the second player
answers 1, 3 and 2, each a position of `Actions()`, the engine plays 5, 9 and 6
and the loop of `main` ends, after three passes, because the game is over, with
the top row owned by the mark `1` of the second player. -/
theorem C20_engine_loses_as_first_player :
    IntelligentMoveAlphaBeta New = .done () (New.child 5)
      ∧ (1 : Int) ∈ (New.child 5).actions
      ∧ IntelligentMoveAlphaBeta ((New.child 5).child 1)
          = .done () (((New.child 5).child 1).child 9)
      ∧ (3 : Int) ∈ (((New.child 5).child 1).child 9).actions
      ∧ IntelligentMoveAlphaBeta ((((New.child 5).child 1).child 9).child 3)
          = .done () topRowOpen
      ∧ (2 : Int) ∈ topRowOpen.actions
      ∧ (∀ fuel : Nat, main (fuel + 4) [1, 3, 2] = .done () selfPlayEnd)
      ∧ selfPlayEnd.GameOver = true
      ∧ (selfPlayEnd.board 0 = 1 ∧ selfPlayEnd.board 1 = 1 ∧ selfPlayEnd.board 2 = 1)
      ∧ 0 < ownedLines selfPlayEnd.board 1 := by
  refine ⟨engine_first_move, by decide, engine_second_move, by decide, engine_third_move,
    by decide, ?_, by decide, by decide, by decide⟩
  intro fuel
  unfold main
  rw [mainLoop_step (fuel + 3) 0 1 _ (by decide) engine_first_move
      (by decide : Result 1 (New.child 5) = .done () ((New.child 5).child 1)),
    mainLoop_step (fuel + 2) 1 3 _ (by decide) engine_second_move
      (by decide : Result 3 (((New.child 5).child 1).child 9)
        = .done () ((((New.child 5).child 1).child 9).child 3)),
    mainLoop_step (fuel + 1) 3 2 _ (by decide) engine_third_move
      (by decide : Result 2 topRowOpen = .done () selfPlayEnd)]
  exact mainLoop_over _ _ _ (by decide)

end TicTacToe
